import Mathlib

/-!
Verification of the `code2llm.py` context generator.

The tool walks a target directory, builds an annotated display tree, collects the
files whose contents are to be embedded, and writes a single Markdown document.
This file gives a shallow embedding of `src/code2llm.py` and proves the stated
properties about it.

Modelling conventions:
* A directory's on-disk children are a `List (String × Entry)` in the order the
  filesystem enumerates them (`Path.iterdir` / `Path.rglob` order).
* Relative paths are lists of name components; `joinPath` renders them with `/`
  separators exactly as `str()` of a relative `PurePosixPath` does.
* `open(path)` for the ignore-rules, context-description and output files is
  modelled by a lookup in a flat map from resolved path strings to text contents.
* Python's `sorted` is a stable sort by the given key; it is modelled by a stable
  insertion sort with the same comparison semantics (strings compare by Unicode
  code point, tuples lexicographically, `False < True`).
-/

/-- Python compares characters by Unicode code point. -/
def charLT (a b : Char) : Bool := decide (a.toNat < b.toNat)

/-- Lexicographic code-point comparison of character lists. -/
def chLT : List Char → List Char → Bool
  | [], [] => false
  | [], _ :: _ => true
  | _ :: _, [] => false
  | a :: as, b :: bs => charLT a b || (a == b && chLT as bs)

/-- Python's `<` on strings: lexicographic by Unicode code point. -/
def strLT (s t : String) : Bool := chLT s.data t.data

/-- Rendering of a relative path, as `str()` of a relative `PurePosixPath`:
components joined by `/`. -/
def joinPath : List String → String
  | [] => ""
  | [a] => a
  | a :: rest => a ++ "/" ++ joinPath rest

/-- The final name component of a relative path (`Path.name`). -/
def last_name (p : List String) : String := p.getLastD ""

/-- `pathlib.PurePath.suffix`: the substring of the final component from its last
dot, provided that dot is neither the first nor the last character; `""` otherwise. -/
def path_suffix (name : String) : String :=
  let cs := name.data
  let j := cs.reverse.findIdx (· == '.')
  if j < cs.length then
    let i := cs.length - 1 - j
    if 0 < i ∧ i < cs.length - 1 then String.mk (cs.drop i) else ""
  else ""

/-- `str.lstrip('.')`: drop leading dots. -/
def lstrip_dots (s : String) : String := String.mk (s.data.dropWhile (· == '.'))

/-- The fenced-block language tag of a path: `path.suffix.lstrip('.')`
(src/code2llm.py line 131). -/
def extTag (rel_path : List String) : String := lstrip_dots (path_suffix (last_name rel_path))

/-- Whether a path string is absolute: it begins with `/`. -/
def isAbsolute (p : String) : Bool := p.data.headD ' ' == '/'

/-- Resolution of a CLI-supplied path by the operating system: an absolute path is
used as is, a relative one is interpreted against the process's current working
directory. -/
def resolvePath (cwd p : String) : String :=
  if isAbsolute p then p else cwd ++ "/" ++ p

/-- One filesystem entry below the target directory.  A `file` carries its byte
size (`stat().st_size`) and its text contents — `none` when the bytes do not
decode as UTF-8 (`read_text` raises `UnicodeDecodeError`).  A `symlink` is a
symbolic link to a regular file and carries the target's size and text, since
`is_file()`, `stat()` and `read_text()` all follow the link.  A `dir` carries its
enumerated children. -/
inductive Entry where
  | file (size : Nat) (text : Option String)
  | symlink (size : Nat) (text : Option String)
  | dir (children : List (String × Entry))

/-- `Path.is_dir()` (follows links; our symlinks point at regular files). -/
def Entry.is_dir : Entry → Bool
  | .dir _ => true
  | _ => false

/-- `Path.is_file()` (follows links, so a symlink to a regular file is a file). -/
def Entry.is_file : Entry → Bool
  | .file _ _ => true
  | .symlink _ _ => true
  | .dir _ => false

/-- `Path.is_symlink()`. -/
def Entry.is_symlink : Entry → Bool
  | .symlink _ _ => true
  | _ => false

/-- `Path.stat().st_size` (follows links).  Directory sizes are never consulted by
the source (the only uses are guarded by `is_file()` or preceded by an `is_dir()`
skip), so they are modelled as `0`. -/
def Entry.st_size : Entry → Nat
  | .file sz _ => sz
  | .symlink sz _ => sz
  | .dir _ => 0

/-- `Path.read_text(encoding='utf-8')`: the decoded text, or `none` for a
`UnicodeDecodeError`.  It is only ever called on collected paths, which are never
directories. -/
def Entry.read_text : Entry → Option String
  | .file _ tx => tx
  | .symlink _ tx => tx
  | .dir _ => none

/-- The compiled ignore matcher, queried as `ignore_spec.match_file(rel_path)`:
a predicate on paths relative to the target directory.  The tree builder and the
collector receive it as an opaque predicate, exactly as the source passes
`ignore_spec` around. -/
abbrev PathSpec := List String → Bool

/-- The ambient state a run sees: the current working directory, a flat map from
resolved path strings to the text contents of openable files, and the resolved
target directory's name component and enumerated children. -/
structure FileSystem where
  cwd : String
  files : List (String × String)
  target_name : String
  target_children : List (String × Entry)

/-- The parsed CLI arguments of `main` (src/code2llm.py lines 64-79). -/
structure Args where
  target_dir : String
  ignore_file : String
  output : String
  max_size : Nat
  context_file : Option String

/-- The argparse defaults: `.`, `.context.ignore`, `context.md`, `102400`, no
context-description file. -/
def defaultArgs : Args :=
  { target_dir := ".", ignore_file := ".context.ignore", output := "context.md",
    max_size := 102400, context_file := none }

/-- The display tree (src/code2llm.py lines 7-13): name, directory flag, children
in construction order, and the two annotation flags, both `False` at construction. -/
inductive TreeNode where
  | mk (name : String) (is_dir : Bool) (children : List TreeNode)
      (ignored : Bool) (size_exceeded : Bool)

def TreeNode.name : TreeNode → String
  | .mk n _ _ _ _ => n

def TreeNode.is_dir : TreeNode → Bool
  | .mk _ d _ _ _ => d

def TreeNode.children : TreeNode → List TreeNode
  | .mk _ _ cs _ _ => cs

def TreeNode.ignored : TreeNode → Bool
  | .mk _ _ _ ig _ => ig

def TreeNode.size_exceeded : TreeNode → Bool
  | .mk _ _ _ _ se => se

/-- The assignment `child.ignored = ignored` (src/code2llm.py line 25). -/
def TreeNode.setIgnored : TreeNode → Bool → TreeNode
  | .mk n d cs _ se, b => .mk n d cs b se

/-- Stable insertion of `a` into `l`, placing `a` before the first element `b`
with `le a b`. -/
def insertLe {α : Type} (le : α → α → Bool) (a : α) : List α → List α
  | [] => [a]
  | b :: t => if le a b then a :: b :: t else b :: insertLe le a t

/-- Stable insertion sort: extensionally Python's `sorted` with comparison
`le a b` meaning "`a` may be placed before `b`" (equal elements keep their
original relative order). -/
def sortLe {α : Type} (le : α → α → Bool) : List α → List α
  | [] => []
  | a :: t => insertLe le a (sortLe le t)

/-- Strict lexicographic comparison of the sort keys `(x.is_dir, x.name)` used at
src/code2llm.py line 55, with Python's `False < True` on booleans and code-point
order on names. -/
def keyLT (x y : TreeNode) : Bool :=
  (!x.is_dir && y.is_dir) || (x.is_dir == y.is_dir && strLT x.name y.name)

/-- `sorted(node.children, key=lambda x: (x.is_dir, x.name), reverse=True)`
(src/code2llm.py line 55): a stable descending sort by `(is_dir, name)` — `a` may
stay before `b` unless `a`'s key is strictly smaller. -/
def sortChildren (l : List TreeNode) : List TreeNode :=
  sortLe (fun a b => ! keyLT a b) l

mutual

/-- The loop of src/code2llm.py lines 18-31: one node per entry, with `rel_path`
(`entry.relative_to(target_dir)`) passed as `rel ++ [n]`. -/
def build_children (ignore_spec : PathSpec) (max_size : Nat) :
    List (String × Entry) → List String → List TreeNode
  | [], _ => []
  | (n, e) :: rest, rel =>
    build_entry_node ignore_spec max_size n e (rel ++ [n])
      :: build_children ignore_spec max_size rest rel

/-- The loop body of src/code2llm.py lines 18-31 for one entry at `rel_path`:
the entry gets `ignored = ignore_spec.match_file(rel_path)`; a non-directory also
gets `size_exceeded = entry.is_file() and entry.stat().st_size > max_size`; a
directory child is the recursive `build_directory_tree` result — the
`TreeNode.mk n True children False False` written inline here — whose `ignored`
field is then overwritten (line 25), descending unconditionally. -/
def build_entry_node (ignore_spec : PathSpec) (max_size : Nat) (n : String) :
    Entry → List String → TreeNode
  | .dir cs, rel_path =>
    (TreeNode.mk n true (build_children ignore_spec max_size cs rel_path) false
        false).setIgnored (ignore_spec rel_path)
  | .file sz _, rel_path =>
    .mk n false [] (ignore_spec rel_path) (decide (max_size < sz))
  | .symlink sz _, rel_path =>
    .mk n false [] (ignore_spec rel_path) (decide (max_size < sz))

end

/-- `build_directory_tree` (src/code2llm.py lines 15-33).  The Python function
receives the directory as a `Path`; here the directory is its name component and
its enumerated children, and `rel` is its path relative to the target directory. -/
def build_directory_tree (name : String) (children : List (String × Entry))
    (ignore_spec : PathSpec) (max_size : Nat) (rel : List String) : TreeNode :=
  .mk name true (build_children ignore_spec max_size children rel) false false

/-- The tree node built for a single directory entry, as a function of the
`(name, entry)` pair. -/
def build_child (ignore_spec : PathSpec) (max_size : Nat) (rel : List String)
    (pr : String × Entry) : TreeNode :=
  build_entry_node ignore_spec max_size pr.1 pr.2 (rel ++ [pr.1])

mutual

/-- `format_tree` (src/code2llm.py lines 35-61): connector, icon and name, the
comma-joined annotation (shown when the node is ignored, or is a non-directory
with the size flag), then — for directories — the children re-sorted by
`(is_dir, name)` descending, the last child flagged, with the continuation prefix
extended by four spaces after a last sibling and by a bar otherwise. -/
def format_tree : TreeNode → String → Bool → String
  | .mk name is_dir children ignored size_exceeded, pre, is_last =>
    let connector := if is_last then "└── " else "├── "
    let base := pre ++ connector ++ (if is_dir then "📁 " ++ name else "📄 " ++ name)
    let reasons := (if ignored then ["ignored"] else [])
      ++ (if size_exceeded then ["size exceeded"] else [])
    let line := (if ignored || (!is_dir && size_exceeded) then
        base ++ " (" ++ String.intercalate ", " reasons ++ ")"
      else base) ++ "\n"
    if is_dir then
      line ++ format_children (sortChildren children)
        (pre ++ (if is_last then "    " else "│   "))
    else line
termination_by t _ _ => sizeOf t
decreasing_by
  have hins : ∀ (le : TreeNode → TreeNode → Bool) (a : TreeNode) (l : List TreeNode),
      sizeOf (insertLe le a l) = 1 + sizeOf a + sizeOf l := by
    intro le a l
    induction l with
    | nil => simp [insertLe]
    | cons b t ih => simp only [insertLe]; split <;> simp <;> omega
  have hsort : ∀ (l : List TreeNode), sizeOf (sortChildren l) = sizeOf l := by
    intro l
    induction l with
    | nil => rfl
    | cons b t ih => simp only [sortChildren, sortLe] at *; rw [hins]; simp; omega
  simp_wf
  rw [hsort]
  omega

/-- The child loop of src/code2llm.py lines 56-59: `i == len(children)-1` marks
the last sibling. -/
def format_children : List TreeNode → String → String
  | [], _ => ""
  | [c], pre => format_tree c pre true
  | c :: c2 :: rest, pre => format_tree c pre false ++ format_children (c2 :: rest) pre
termination_by l _ => sizeOf l
decreasing_by
  all_goals simp_wf
  all_goals omega

end

mutual

/-- `target_dir.rglob('*')` paired with the entry found at each path: every
descendant of the target directory, with its path relative to the target
(src/code2llm.py line 95). -/
def rglob : List (String × Entry) → List String → List (List String × Entry)
  | [], _ => []
  | (n, e) :: rest, rel =>
    ((rel ++ [n], e) :: rglob_entry e (rel ++ [n])) ++ rglob rest rel

/-- Descent of the walk below one entry: only directories have descendants. -/
def rglob_entry : Entry → List String → List (List String × Entry)
  | .dir cs, rel => rglob cs rel
  | _, _ => []

end

/-- The collection loop of `main` (src/code2llm.py lines 92-106): every walked
path that is neither a directory nor a symlink, is not matched by the ignore
rules, and whose size does not exceed `max_size`, in walk order. -/
def included_files (children : List (String × Entry)) (ignore_spec : PathSpec)
    (max_size : Nat) : List (List String) :=
  (rglob children []).filterMap fun pe =>
    if pe.2.is_dir || pe.2.is_symlink then none
    else if ignore_spec pe.1 then none
    else if max_size < pe.2.st_size then none
    else some pe.1

/-- Python's comparison of path-component lists: `PurePath.__lt__` compares the
tuple of parts (`_cparts`), i.e. lexicographically by component, each component
compared as a string by code point, a strict prefix ordering before its
extensions. -/
def partsLT : List String → List String → Bool
  | [], [] => false
  | [], _ :: _ => true
  | _ :: _, [] => false
  | a :: as, b :: bs => strLT a b || (a == b && partsLT as bs)

/-- `a` may be placed before `b` when sorting collected paths: Python sorts the
absolute `Path` objects (`sorted(included_files)`, src/code2llm.py line 123),
and `PurePath.__lt__` compares the parts lists (`_cparts`); all collected paths
share the absolute target directory's components as a common prefix, so that
order coincides with component-list comparison of the relative paths. -/
def pathLe (a b : List String) : Bool := ! partsLT b a

/-- `sorted(included_files)` (src/code2llm.py line 123). -/
def sortPaths (l : List (List String)) : List (List String) := sortLe pathLe l

/-- Look up the entry at a relative path below a directory's children
(the filesystem's own name resolution; first name match at each level —
on a real filesystem sibling names are distinct). -/
def findEntry : List String → List (String × Entry) → Option Entry
  | [], _ => none
  | [n], cs => (cs.find? (fun pr => pr.1 == n)).map Prod.snd
  | n :: rest, cs =>
    match cs.find? (fun pr => pr.1 == n) with
    | some (_, .dir cs') => findEntry rest cs'
    | _ => none

/-- Navigate the built display tree along a relative path by node names. -/
def TreeNode.find : List String → TreeNode → Option TreeNode
  | [], t => some t
  | n :: rest, t =>
    match t.children.find? (fun c => c.name == n) with
    | some c => TreeNode.find rest c
    | none => none

/-- The output written for one collected path (src/code2llm.py lines 123-133):
`read_text` it; on a `UnicodeDecodeError` contribute nothing (`continue`);
otherwise a `## File:` heading and a fenced block tagged with the extension.
A collected path always resolves to a non-directory entry, so the `none` lookup
branch is unreachable on the lists the program builds. -/
def render_file_block (children : List (String × Entry)) (rel_path : List String) : String :=
  match findEntry rel_path children with
  | some e =>
    match e.read_text with
    | some content =>
      "## File: " ++ joinPath rel_path ++ "\n" ++ "```" ++ extTag rel_path ++ "\n"
        ++ content ++ "\n" ++ "```\n\n"
    | none => ""
  | none => ""

/-- The `# File Contents` loop body (src/code2llm.py lines 123-133), over a given
list of relative paths. -/
def file_contents_section (children : List (String × Entry)) : List (List String) → String
  | [] => ""
  | p :: rest => render_file_block children p ++ file_contents_section children rest

/-- Split a character list at every occurrence of `c` (the separator is dropped). -/
def splitOnChar (c : Char) : List Char → List (List Char)
  | [] => [[]]
  | a :: rest =>
    if a == c then [] :: splitOnChar c rest
    else
      match splitOnChar c rest with
      | h :: t => (a :: h) :: t
      | [] => [[a]]

/-- The lines of a text, as Python's file iteration / `splitlines` would yield
them for the matcher (split at `\n`). -/
def splitNewlines (s : String) : List String := (splitOnChar '\n' s.data).map String.mk

/-- Model of the third-party `pathspec.PathSpec.from_lines('gitwildmatch', f)`
call (src/code2llm.py line 87), restricted to the fragment this development
relies on: each non-empty, non-comment line matches exactly the relative paths
whose slash-joined form equals the line.  No claim here depends on richer
gitwildmatch pattern semantics: the tree builder and collector receive the
compiled matcher as an opaque predicate, and the claims about the matcher itself
concern only which file its pattern lines are read from. -/
def compileLines (text : String) : PathSpec := fun rel_path =>
  ((splitNewlines text).filter (fun l => !(l == "") && !(l.data.headD ' ' == '#'))).any
    (fun pat => pat == joinPath rel_path)

/-- Loading of the ignore rules (src/code2llm.py lines 82-89):
`Path(args.ignore_file)` is used as given — resolved by the operating system
against the current working directory, never joined with the target directory;
if no file exists there the matcher matches nothing (`PathSpec([])`). -/
def load_ignore_spec (fs : FileSystem) (ignore_file : String) : PathSpec :=
  match fs.files.lookup (resolvePath fs.cwd ignore_file) with
  | some text => compileLines text
  | none => fun _ => false

/-- The document written after the optional context-overview section
(src/code2llm.py lines 116-133): the `# Codebase Structure` heading, the tree
diagram in a fence, the `# File Contents` heading, then the collected files in
sorted path order. -/
def doc_body (fs : FileSystem) (args : Args) : String :=
  let ignore_spec := load_ignore_spec fs args.ignore_file
  "# Codebase Structure\n\n" ++ "```\n"
    ++ format_tree
        (build_directory_tree fs.target_name fs.target_children ignore_spec args.max_size [])
        "" true
    ++ "```\n\n"
    ++ "# File Contents\n\n"
    ++ file_contents_section fs.target_children
        (sortPaths (included_files fs.target_children ignore_spec args.max_size))

/-- `main` (src/code2llm.py lines 63-134), from the point the arguments are
parsed.  The result is the outcome paired with the content left at the output
destination: `open(args.output, 'w')` (line 109) truncates the destination
*before* anything else happens inside the `with` block; if a non-empty
`--context-file` was supplied but does not exist, the `open` on line 112 raises
`FileNotFoundError`, the run aborts, and the destination is left truncated empty.
Python's `if args.context_file:` is falsy both for `None` and for the empty
string. -/
def run (fs : FileSystem) (args : Args) : Except Unit Unit × String :=
  match args.context_file with
  | some cf =>
    if cf = "" then (.ok (), doc_body fs args)
    else
      match fs.files.lookup (resolvePath fs.cwd cf) with
      | none => (.error (), "")
      | some text =>
        (.ok (), "# Context Overview\n\n" ++ text ++ "\n\n" ++ doc_body fs args)
  | none => (.ok (), doc_body fs args)

mutual

/-- Well-formedness of one entry: its subtree, if any, is well-formed. -/
def wfEntry : Entry → Bool
  | .dir cs => wfChildren cs
  | _ => true

/-- Well-formedness of an enumerated directory: what a real filesystem
guarantees — sibling names are distinct and contain no `/`, recursively. -/
def wfChildren : List (String × Entry) → Bool
  | [] => true
  | (n, e) :: rest =>
    !((rest.map Prod.fst).contains n) && !(n.data.contains '/')
      && wfEntry e && wfChildren rest

end

/-- Strict lexicographic comparison of directory entries by
`(is_dir, name)` — the entry-level counterpart of `keyLT`. -/
def pairKeyLT (p q : String × Entry) : Bool :=
  (!p.2.is_dir && q.2.is_dir) || (p.2.is_dir == q.2.is_dir && strLT p.1 q.1)

/-- Canonical descending order on enumerated children, mirroring the renderer's
sibling order. -/
def sortPairsKD (l : List (String × Entry)) : List (String × Entry) :=
  sortLe (fun a b => ! pairKeyLT a b) l

mutual

/-- Canonical form of an entry: every directory's children recursively sorted
into the canonical order.  Two enumerations of the same on-disk directory (same
entries, any listing order, distinct sibling names) have the same canonical form,
so equality of canonical forms states that two `FileSystem` values describe the
same filesystem up to enumeration order. -/
def canonEntry : Entry → Entry
  | .file sz tx => .file sz tx
  | .symlink sz tx => .symlink sz tx
  | .dir cs => .dir (sortPairsKD (canonList cs))

/-- Canonical form of each entry in an enumerated children list, in place. -/
def canonList : List (String × Entry) → List (String × Entry)
  | [] => []
  | (n, e) :: rest => (n, canonEntry e) :: canonList rest

end

/-- Canonical form of an enumerated children list. -/
def normalizeChildren (cs : List (String × Entry)) : List (String × Entry) :=
  sortPairsKD (canonList cs)

/-! ### Concrete instances used to exercise the theorems -/

/-- The ignore matcher of the spec's walkthrough scenario: exactly `secret.txt`. -/
def exSpec : PathSpec := fun p => joinPath p == "secret.txt"

/-- A small target directory: an oversized file, a small file, an ignored file,
and a subdirectory holding a symlink and an undecodable file. -/
def exChildren : List (String × Entry) :=
  [("b.py", .file 200000 (some "print(2)\n")),
   ("a.py", .file 50 (some "print(1)\n")),
   ("secret.txt", .file 10 (some "token")),
   ("sub", .dir [("ln", .symlink 5 (some "target text")), ("c.md", .file 7 none)])]

/-- A filesystem whose output destination already holds content and that lacks the
context-description file the arguments name. -/
def fsC1 : FileSystem :=
  { cwd := "/home/user", files := [("/home/user/context.md", "old contents")],
    target_name := "proj", target_children := exChildren }

/-- Arguments supplying a context-description path that does not exist. -/
def argsC1 : Args := { defaultArgs with context_file := some "missing.md" }

/-- Two `.context.ignore` files with different patterns: one in the current
working directory, one inside the target directory `/repo`. -/
def fsC10 : FileSystem :=
  { cwd := "/home/user",
    files := [("/home/user/.context.ignore", "a.txt"), ("/repo/.context.ignore", "b.txt")],
    target_name := "repo", target_children := [] }

/-- One enumeration order of a directory. -/
def exEnumA : List (String × Entry) :=
  [("b.txt", .file 1 (some "b")), ("a.txt", .file 2 (some "a")),
   ("sub", .dir [("x.md", .file 3 (some "x")), ("y.md", .file 4 (some "y"))])]

/-- The same directory contents enumerated in a different order, also inside
`sub`. -/
def exEnumB : List (String × Entry) :=
  [("sub", .dir [("y.md", .file 4 (some "y")), ("x.md", .file 3 (some "x"))]),
   ("a.txt", .file 2 (some "a")), ("b.txt", .file 1 (some "b"))]

/-- A filesystem around the first enumeration order. -/
def fsEnumA : FileSystem :=
  { cwd := "/h", files := [], target_name := "proj", target_children := exEnumA }

/-- The sibling set of the ordering example: files `b.txt` and `a.txt` and a
directory `sub`. -/
def exSiblings : TreeNode :=
  .mk "root" true
    [.mk "b.txt" false [] false false, .mk "a.txt" false [] false false,
     .mk "sub" true [] false false] false false

/-! ### Order-theoretic facts about the comparators -/

theorem str_eq_of_data {s t : String} (h : s.data = t.data) : s = t := by
  cases s; cases t; exact congrArg String.mk h

theorem char_toNat_inj {a b : Char} (h : a.toNat = b.toNat) : a = b := by
  have h2 := congrArg Char.ofNat h
  rwa [Char.ofNat_toNat, Char.ofNat_toNat] at h2

theorem charLT_trans {a b c : Char} (h1 : charLT a b = true) (h2 : charLT b c = true) :
    charLT a c = true := by
  simp only [charLT, decide_eq_true_eq] at *
  omega

theorem charLT_asymm {a b : Char} (h : charLT a b = true) : charLT b a = false := by
  simp only [charLT, decide_eq_true_eq, decide_eq_false_iff_not] at *
  omega

theorem charLT_conn {a b : Char} (h1 : charLT a b = false) (h2 : charLT b a = false) :
    a = b := by
  simp only [charLT, decide_eq_false_iff_not] at *
  exact char_toNat_inj (by omega)

theorem chLT_trans : ∀ {a b c : List Char}, chLT a b = true → chLT b c = true →
    chLT a c = true := by
  intro a
  induction a with
  | nil =>
    intro b c h1 h2
    cases b with
    | nil => simpa using h2
    | cons y ys => cases c with
      | nil => simp [chLT] at h2
      | cons z zs => simp [chLT]
  | cons x xs ih =>
    intro b c h1 h2
    cases b with
    | nil => simp [chLT] at h1
    | cons y ys =>
      cases c with
      | nil => simp [chLT] at h2
      | cons z zs =>
        simp only [chLT, Bool.or_eq_true, Bool.and_eq_true, beq_iff_eq] at h1 h2 ⊢
        rcases h1 with h1 | ⟨rfl, h1⟩
        · rcases h2 with h2 | ⟨rfl, h2⟩
          · exact Or.inl (charLT_trans h1 h2)
          · exact Or.inl h1
        · rcases h2 with h2 | ⟨rfl, h2⟩
          · exact Or.inl h2
          · exact Or.inr ⟨rfl, ih h1 h2⟩

theorem chLT_asymm : ∀ {a b : List Char}, chLT a b = true → chLT b a = false := by
  intro a
  induction a with
  | nil =>
    intro b h
    cases b with
    | nil => simpa [chLT] using h
    | cons y ys => simp [chLT]
  | cons x xs ih =>
    intro b h
    cases b with
    | nil => simp [chLT] at h
    | cons y ys =>
      simp only [chLT, Bool.or_eq_true, Bool.and_eq_true, beq_iff_eq,
        Bool.or_eq_false_iff, Bool.and_eq_false_iff] at h ⊢
      rcases h with h | ⟨rfl, h⟩
      · refine ⟨charLT_asymm h, ?_⟩
        left
        simp only [beq_eq_false_iff_ne, ne_eq]
        intro rfl'
        subst rfl'
        simp [charLT] at h
      · exact ⟨by simp [charLT], Or.inr (ih h)⟩

theorem chLT_conn : ∀ {a b : List Char}, chLT a b = false → chLT b a = false → a = b := by
  intro a
  induction a with
  | nil =>
    intro b h1 _
    cases b with
    | nil => rfl
    | cons y ys => simp [chLT] at h1
  | cons x xs ih =>
    intro b h1 h2
    cases b with
    | nil => simp [chLT] at h2
    | cons y ys =>
      simp only [chLT, Bool.or_eq_false_iff, Bool.and_eq_false_iff,
        beq_eq_false_iff_ne, ne_eq] at h1 h2
      obtain ⟨hc1, h1'⟩ := h1
      obtain ⟨hc2, h2'⟩ := h2
      have hxy : x = y := charLT_conn hc1 hc2
      subst hxy
      rcases h1' with h1' | h1'
      · exact absurd rfl h1'
      · rcases h2' with h2' | h2'
        · exact absurd rfl h2'
        · rw [ih h1' h2']

theorem strLT_trans {a b c : String} (h1 : strLT a b = true) (h2 : strLT b c = true) :
    strLT a c = true := chLT_trans h1 h2

theorem strLT_asymm {a b : String} (h : strLT a b = true) : strLT b a = false :=
  chLT_asymm h

theorem strLT_conn {a b : String} (h1 : strLT a b = false) (h2 : strLT b a = false) :
    a = b := str_eq_of_data (chLT_conn h1 h2)

/-! ### Stable insertion sort: permutation, sortedness, uniqueness -/

theorem insertLe_perm {α : Type} (le : α → α → Bool) (a : α) :
    ∀ l : List α, (insertLe le a l).Perm (a :: l) := by
  intro l
  induction l with
  | nil => simp [insertLe]
  | cons b t ih =>
    simp only [insertLe]
    split
    · exact List.Perm.refl _
    · exact (ih.cons b).trans (List.Perm.swap a b t)

theorem sortLe_perm {α : Type} (le : α → α → Bool) :
    ∀ l : List α, (sortLe le l).Perm l := by
  intro l
  induction l with
  | nil => simp [sortLe]
  | cons a t ih => exact (insertLe_perm le a (sortLe le t)).trans (ih.cons a)

theorem mem_sortLe {α : Type} {le : α → α → Bool} {a : α} {l : List α} :
    a ∈ sortLe le l ↔ a ∈ l := (sortLe_perm le l).mem_iff

theorem insertLe_pairwise {α : Type} {le : α → α → Bool}
    (htot : ∀ a b, le a b || le b a)
    (htrans : ∀ a b c, le a b = true → le b c = true → le a c = true)
    (a : α) : ∀ {l : List α}, l.Pairwise (le · · = true) →
      (insertLe le a l).Pairwise (le · · = true) := by
  intro l
  induction l with
  | nil => simp [insertLe]
  | cons b t ih =>
    intro hp
    rw [List.pairwise_cons] at hp
    obtain ⟨hb, ht⟩ := hp
    simp only [insertLe]
    split
    · rename_i hab
      rw [List.pairwise_cons]
      refine ⟨?_, by rw [List.pairwise_cons]; exact ⟨hb, ht⟩⟩
      intro x hx
      rcases List.mem_cons.mp hx with rfl | hx
      · exact hab
      · exact htrans a b x hab (hb x hx)
    · rename_i hab
      rw [List.pairwise_cons]
      refine ⟨?_, ih ht⟩
      intro x hx
      rcases List.mem_cons.mp ((insertLe_perm le a t).mem_iff.mp hx) with rfl | hx2
      · have h3 := htot x b
        simp only [Bool.or_eq_true] at h3
        rcases h3 with h | h
        · exact absurd h (by simpa using hab)
        · exact h
      · exact hb x hx2

theorem sortLe_pairwise {α : Type} {le : α → α → Bool}
    (htot : ∀ a b, le a b || le b a)
    (htrans : ∀ a b c, le a b = true → le b c = true → le a c = true)
    (l : List α) : (sortLe le l).Pairwise (le · · = true) := by
  induction l with
  | nil => simp [sortLe]
  | cons a t ih => exact insertLe_pairwise htot htrans a ih

theorem sortLe_of_pairwise {α : Type} {le : α → α → Bool} :
    ∀ {l : List α}, l.Pairwise (le · · = true) → sortLe le l = l := by
  intro l
  induction l with
  | nil => intro _; rfl
  | cons a t ih =>
    intro hp
    rw [List.pairwise_cons] at hp
    obtain ⟨ha, ht⟩ := hp
    simp only [sortLe, ih ht]
    cases t with
    | nil => rfl
    | cons b t2 =>
      simp only [insertLe]
      rw [if_pos (ha b (by simp))]

theorem sortLe_idem {α : Type} {le : α → α → Bool}
    (htot : ∀ a b, le a b || le b a)
    (htrans : ∀ a b c, le a b = true → le b c = true → le a c = true)
    (l : List α) : sortLe le (sortLe le l) = sortLe le l :=
  sortLe_of_pairwise (sortLe_pairwise htot htrans l)

theorem insertLe_map_comm {α β : Type} {le : β → β → Bool} {le' : α → α → Bool}
    {f : α → β} (hcomm : ∀ a b, le (f a) (f b) = le' a b) (a : α) :
    ∀ l : List α, insertLe le (f a) (l.map f) = (insertLe le' a l).map f := by
  intro l
  induction l with
  | nil => simp [insertLe]
  | cons b t ih =>
    simp only [List.map_cons, insertLe, hcomm]
    split
    · simp
    · simp [ih]

theorem sortLe_map_comm {α β : Type} {le : β → β → Bool} {le' : α → α → Bool}
    {f : α → β} (hcomm : ∀ a b, le (f a) (f b) = le' a b) :
    ∀ l : List α, sortLe le (l.map f) = (sortLe le' l).map f := by
  intro l
  induction l with
  | nil => rfl
  | cons a t ih => simp only [List.map_cons, sortLe, ih, insertLe_map_comm hcomm]

/-- Two sorted lists that are permutations of each other and on whose members the
order is antisymmetric are equal. -/
theorem pairwise_perm_eq {α : Type} {le : α → α → Bool} :
    ∀ {l₁ l₂ : List α}, l₁.Perm l₂ →
      l₁.Pairwise (le · · = true) → l₂.Pairwise (le · · = true) →
      (∀ a, a ∈ l₁ → ∀ b, b ∈ l₁ → le a b = true → le b a = true → a = b) →
      l₁ = l₂ := by
  intro l₁
  induction l₁ with
  | nil => intro l₂ hp _ _ _; simpa using hp.nil_eq
  | cons a t ih =>
    intro l₂ hp h1 h2 anti
    cases l₂ with
    | nil => exact absurd hp.symm.nil_eq (by simp)
    | cons b u =>
      rw [List.pairwise_cons] at h1 h2
      obtain ⟨ha, ht⟩ := h1
      obtain ⟨hb, hu⟩ := h2
      by_cases hab : a = b
      · subst hab
        rw [ih (hp.cons_inv) ht hu
          (fun x hx y hy h h2 => anti x (by simp [hx]) y (by simp [hy]) h h2)]
      · have hbmem : b ∈ a :: t := hp.symm.subset (by simp)
        have hamem : a ∈ b :: u := hp.subset (by simp)
        have hbt : b ∈ t := by
          rcases List.mem_cons.mp hbmem with h | h
          · exact absurd h.symm hab
          · exact h
        have hau : a ∈ u := by
          rcases List.mem_cons.mp hamem with h | h
          · exact absurd h hab
          · exact h
        exact absurd (anti a (by simp) b (by simp [hbt]) (ha b hbt) (hb a hau)) hab

theorem keyLT_trans {x y z : TreeNode} (h1 : keyLT x y = true) (h2 : keyLT y z = true) :
    keyLT x z = true := by
  cases hdx : x.is_dir <;> cases hdy : y.is_dir <;> cases hdz : z.is_dir <;>
    simp_all [keyLT] <;> exact strLT_trans h1 h2

theorem keyLT_asymm {x y : TreeNode} (h : keyLT x y = true) : keyLT y x = false := by
  cases hdx : x.is_dir <;> cases hdy : y.is_dir <;> simp_all [keyLT] <;>
    exact strLT_asymm h

theorem keyLT_conn {x y : TreeNode} (h1 : keyLT x y = false) (h2 : keyLT y x = false) :
    x.is_dir = y.is_dir ∧ x.name = y.name := by
  cases hdx : x.is_dir <;> cases hdy : y.is_dir <;> simp_all [keyLT] <;>
    exact strLT_conn h1 h2

theorem keyLT_congr_left {x y z : TreeNode} (hd : x.is_dir = y.is_dir)
    (hn : x.name = y.name) : keyLT x z = keyLT y z := by
  simp [keyLT, hd, hn]

theorem nodeLe_total (a b : TreeNode) : (!keyLT a b) || (!keyLT b a) := by
  cases h : keyLT a b
  · simp
  · simp [keyLT_asymm h]

theorem nodeLe_trans (a b c : TreeNode) (h1 : (!keyLT a b) = true)
    (h2 : (!keyLT b c) = true) : (!keyLT a c) = true := by
  simp only [Bool.not_eq_true'] at *
  cases hac : keyLT a c
  · rfl
  · exfalso
    cases hba : keyLT b a
    · obtain ⟨hd, hn⟩ := keyLT_conn h1 hba
      rw [keyLT_congr_left hd hn] at hac
      rw [hac] at h2
      simp at h2
    · have h3 := keyLT_trans hba hac
      rw [h3] at h2
      simp at h2

theorem pairKeyLT_trans {x y z : String × Entry} (h1 : pairKeyLT x y = true)
    (h2 : pairKeyLT y z = true) : pairKeyLT x z = true := by
  cases hdx : x.2.is_dir <;> cases hdy : y.2.is_dir <;> cases hdz : z.2.is_dir <;>
    simp_all [pairKeyLT] <;> exact strLT_trans h1 h2

theorem pairKeyLT_asymm {x y : String × Entry} (h : pairKeyLT x y = true) :
    pairKeyLT y x = false := by
  cases hdx : x.2.is_dir <;> cases hdy : y.2.is_dir <;> simp_all [pairKeyLT] <;>
    exact strLT_asymm h

theorem pairKeyLT_conn {x y : String × Entry} (h1 : pairKeyLT x y = false)
    (h2 : pairKeyLT y x = false) : x.2.is_dir = y.2.is_dir ∧ x.1 = y.1 := by
  cases hdx : x.2.is_dir <;> cases hdy : y.2.is_dir <;> simp_all [pairKeyLT] <;>
    exact strLT_conn h1 h2

theorem pairKeyLT_congr_left {x y z : String × Entry} (hd : x.2.is_dir = y.2.is_dir)
    (hn : x.1 = y.1) : pairKeyLT x z = pairKeyLT y z := by
  simp [pairKeyLT, hd, hn]

theorem pairLe_total (a b : String × Entry) : (!pairKeyLT a b) || (!pairKeyLT b a) := by
  cases h : pairKeyLT a b
  · simp
  · simp [pairKeyLT_asymm h]

theorem pairLe_trans (a b c : String × Entry) (h1 : (!pairKeyLT a b) = true)
    (h2 : (!pairKeyLT b c) = true) : (!pairKeyLT a c) = true := by
  simp only [Bool.not_eq_true'] at *
  cases hac : pairKeyLT a c
  · rfl
  · exfalso
    cases hba : pairKeyLT b a
    · obtain ⟨hd, hn⟩ := pairKeyLT_conn h1 hba
      rw [pairKeyLT_congr_left hd hn] at hac
      rw [hac] at h2
      simp at h2
    · have h3 := pairKeyLT_trans hba hac
      rw [h3] at h2
      simp at h2

theorem partsLT_trans : ∀ {a b c : List String}, partsLT a b = true →
    partsLT b c = true → partsLT a c = true := by
  intro a
  induction a with
  | nil =>
    intro b c h1 h2
    cases b with
    | nil => simpa using h2
    | cons y ys => cases c with
      | nil => simp [partsLT] at h2
      | cons z zs => simp [partsLT]
  | cons x xs ih =>
    intro b c h1 h2
    cases b with
    | nil => simp [partsLT] at h1
    | cons y ys =>
      cases c with
      | nil => simp [partsLT] at h2
      | cons z zs =>
        simp only [partsLT, Bool.or_eq_true, Bool.and_eq_true, beq_iff_eq] at h1 h2 ⊢
        rcases h1 with h1 | ⟨rfl, h1⟩
        · rcases h2 with h2 | ⟨rfl, h2⟩
          · exact Or.inl (strLT_trans h1 h2)
          · exact Or.inl h1
        · rcases h2 with h2 | ⟨rfl, h2⟩
          · exact Or.inl h2
          · exact Or.inr ⟨rfl, ih h1 h2⟩

theorem partsLT_asymm : ∀ {a b : List String}, partsLT a b = true →
    partsLT b a = false := by
  intro a
  induction a with
  | nil =>
    intro b h
    cases b with
    | nil => simpa [partsLT] using h
    | cons y ys => simp [partsLT]
  | cons x xs ih =>
    intro b h
    cases b with
    | nil => simp [partsLT] at h
    | cons y ys =>
      simp only [partsLT, Bool.or_eq_true, Bool.and_eq_true, beq_iff_eq,
        Bool.or_eq_false_iff, Bool.and_eq_false_iff] at h ⊢
      rcases h with h | ⟨rfl, h⟩
      · refine ⟨strLT_asymm h, ?_⟩
        left
        simp only [beq_eq_false_iff_ne, ne_eq]
        intro rfl2
        subst rfl2
        have h2 := strLT_asymm h
        rw [h2] at h
        simp at h
      · refine ⟨?_, Or.inr (ih h)⟩
        cases hxy : strLT x x
        · rfl
        · have h2 := strLT_asymm hxy
          rw [h2] at hxy
          simp at hxy

theorem partsLT_conn : ∀ {a b : List String}, partsLT a b = false →
    partsLT b a = false → a = b := by
  intro a
  induction a with
  | nil =>
    intro b h1 _
    cases b with
    | nil => rfl
    | cons y ys => simp [partsLT] at h1
  | cons x xs ih =>
    intro b h1 h2
    cases b with
    | nil => simp [partsLT] at h2
    | cons y ys =>
      simp only [partsLT, Bool.or_eq_false_iff, Bool.and_eq_false_iff,
        beq_eq_false_iff_ne, ne_eq] at h1 h2
      obtain ⟨hc1, h1a⟩ := h1
      obtain ⟨hc2, h2a⟩ := h2
      have hxy : x = y := strLT_conn hc1 hc2
      subst hxy
      rcases h1a with h1a | h1a
      · exact absurd rfl h1a
      · rcases h2a with h2a | h2a
        · exact absurd rfl h2a
        · rw [ih h1a h2a]

theorem pathLe_total (a b : List String) : pathLe a b || pathLe b a := by
  simp only [pathLe]
  cases h : partsLT b a
  · simp
  · simp [partsLT_asymm h]

theorem pathLe_trans (a b c : List String) (h1 : pathLe a b = true)
    (h2 : pathLe b c = true) : pathLe a c = true := by
  simp only [pathLe, Bool.not_eq_true'] at *
  cases hac : partsLT c a
  · rfl
  · exfalso
    cases hba : partsLT b c
    · have heq := partsLT_conn h2 hba
      rw [heq] at hac
      rw [hac] at h1
      simp at h1
    · have h3 := partsLT_trans hba hac
      rw [h3] at h1
      simp at h1

/-! ### The built tree and the walk: correspondence with the filesystem -/

theorem build_children_eq_map (ignore_spec : PathSpec) (m : Nat) :
    ∀ (cs : List (String × Entry)) (rel : List String),
      build_children ignore_spec m cs rel = cs.map (build_child ignore_spec m rel) := by
  intro cs rel
  induction cs with
  | nil => rfl
  | cons pr rest ih =>
    obtain ⟨n, e⟩ := pr
    simp [build_children, build_child, ih]

theorem build_child_dir (ignore_spec : PathSpec) (m : Nat) (rel : List String)
    (n : String) (cs : List (String × Entry)) :
    build_child ignore_spec m rel (n, Entry.dir cs)
      = (build_directory_tree n cs ignore_spec m (rel ++ [n])).setIgnored
          (ignore_spec (rel ++ [n])) := rfl

theorem build_child_name (ignore_spec : PathSpec) (m : Nat) (rel : List String)
    (n : String) (e : Entry) : (build_child ignore_spec m rel (n, e)).name = n := by
  cases e <;> rfl

theorem build_child_is_dir (ignore_spec : PathSpec) (m : Nat) (rel : List String)
    (n : String) (e : Entry) : (build_child ignore_spec m rel (n, e)).is_dir = e.is_dir := by
  cases e <;> rfl

theorem build_child_ignored (ignore_spec : PathSpec) (m : Nat) (rel : List String)
    (n : String) (e : Entry) :
    (build_child ignore_spec m rel (n, e)).ignored = ignore_spec (rel ++ [n]) := by
  cases e <;> rfl

theorem build_child_size_exceeded (ignore_spec : PathSpec) (m : Nat) (rel : List String)
    (n : String) (e : Entry) :
    (build_child ignore_spec m rel (n, e)).size_exceeded
      = (e.is_file && decide (m < e.st_size)) := by
  cases e <;> rfl

theorem find?_map_pred {α β : Type} (f : α → β) (p : β → Bool) (q : α → Bool)
    (h : ∀ x, p (f x) = q x) :
    ∀ l : List α, (l.map f).find? p = (l.find? q).map f := by
  intro l
  induction l with
  | nil => rfl
  | cons a t ih =>
    simp only [List.map_cons, List.find?_cons, h a]
    cases q a
    · simpa using ih
    · simp

theorem treeFind_setIgnored (n : String) (rest : List String) (t : TreeNode) (b : Bool) :
    TreeNode.find (n :: rest) (t.setIgnored b) = TreeNode.find (n :: rest) t := by
  cases t
  rfl

theorem treeFind_cons (n : String) (rest : List String) (t : TreeNode) :
    TreeNode.find (n :: rest) t
      = match t.children.find? (fun c => c.name == n) with
        | some c => TreeNode.find rest c
        | none => none := rfl

/-- The node the display tree holds at any existing relative path: `ignored` is
the matcher's verdict on that path, `size_exceeded` is the size test for files
(and `false` for directories), the kind and name mirror the entry. -/
theorem find_build (ignore_spec : PathSpec) (m : Nat) :
    ∀ (p : List String) (cs : List (String × Entry)) (e : Entry)
      (name : String) (rel : List String), findEntry p cs = some e →
      ∃ t, TreeNode.find p (build_directory_tree name cs ignore_spec m rel) = some t ∧
        t.ignored = ignore_spec (rel ++ p) ∧
        t.size_exceeded = (e.is_file && decide (m < e.st_size)) ∧
        t.is_dir = e.is_dir ∧ t.name = last_name p := by
  intro p
  induction p with
  | nil => intro cs e name rel h; simp [findEntry] at h
  | cons n rest ih =>
    intro cs e name rel h
    have hchildren : (build_directory_tree name cs ignore_spec m rel).children
        = cs.map (build_child ignore_spec m rel) := by
      simp [build_directory_tree, TreeNode.children, build_children_eq_map]
    have hfind : (cs.map (build_child ignore_spec m rel)).find? (fun c => c.name == n)
        = (cs.find? (fun pr => pr.1 == n)).map (build_child ignore_spec m rel) :=
      find?_map_pred _ _ _ (fun x => by
        obtain ⟨nx, ex⟩ := x
        rw [build_child_name]) cs
    cases rest with
    | nil =>
      simp only [findEntry] at h
      obtain ⟨pr, hpr, hsnd⟩ := Option.map_eq_some'.mp h
      obtain ⟨n0, e0⟩ := pr
      simp only at hsnd
      subst hsnd
      have hn0 : n0 = n := by
        have h2 := List.find?_some hpr
        simpa using h2
      subst hn0
      refine ⟨build_child ignore_spec m rel (n0, e0), ?_, ?_, ?_, ?_, ?_⟩
      · rw [treeFind_cons, hchildren, hfind, hpr, Option.map_some']
        rfl
      · rw [build_child_ignored]
      · rw [build_child_size_exceeded]
      · rw [build_child_is_dir]
      · rw [build_child_name]; rfl
    | cons r rs =>
      simp only [findEntry] at h
      cases hf : cs.find? (fun pr => pr.1 == n) with
      | none => rw [hf] at h; exact absurd h (by simp)
      | some pr =>
        rw [hf] at h
        obtain ⟨n0, e0⟩ := pr
        cases e0 with
        | file sz tx => exact absurd h (by simp)
        | symlink sz tx => exact absurd h (by simp)
        | dir cs' =>
          have hn0 : n0 = n := by
            have h2 := List.find?_some hf
            simpa using h2
          subst hn0
          obtain ⟨t, ht, h1, h2, h3, h4⟩ := ih cs' e n0 (rel ++ [n0]) h
          refine ⟨t, ?_, ?_, h2, h3, ?_⟩
          · rw [treeFind_cons, hchildren, hfind, hf, Option.map_some']
            simp only
            rw [build_child_dir, treeFind_setIgnored]
            exact ht
          · rw [h1]; simp
          · rw [h4]; rfl

theorem mem_rglob_of_mem {n : String} {e : Entry} :
    ∀ {cs : List (String × Entry)} (rel : List String),
      (n, e) ∈ cs → (rel ++ [n], e) ∈ rglob cs rel := by
  intro cs
  induction cs with
  | nil => intro rel h; simp at h
  | cons pr rest ih =>
    intro rel h
    obtain ⟨n0, e0⟩ := pr
    rcases List.mem_cons.mp h with heq | hmem
    · injection heq with h1 h2
      subst h1
      subst h2
      simp [rglob]
    · simp only [rglob, List.append_eq, List.mem_append, List.mem_cons]
      right
      exact ih rel hmem

theorem sub_rglob {n : String} {cs' : List (String × Entry)} {pe : List String × Entry} :
    ∀ {cs : List (String × Entry)} (rel : List String),
      (n, Entry.dir cs') ∈ cs → pe ∈ rglob cs' (rel ++ [n]) → pe ∈ rglob cs rel := by
  intro cs
  induction cs with
  | nil => intro rel h _; simp at h
  | cons pr rest ih =>
    intro rel h hpe
    obtain ⟨n0, e0⟩ := pr
    rcases List.mem_cons.mp h with heq | hmem
    · have hn : n0 = n ∧ e0 = Entry.dir cs' := by
        constructor
        · exact congrArg Prod.fst heq.symm
        · exact congrArg Prod.snd heq.symm
      obtain ⟨rfl, rfl⟩ := hn
      simp only [rglob, rglob_entry, List.append_eq, List.mem_append, List.mem_cons]
      left
      right
      exact hpe
    · simp only [rglob, List.append_eq, List.mem_append]
      right
      exact ih rel hmem hpe

theorem findEntry_mem_rglob :
    ∀ (p : List String) (cs : List (String × Entry)) (e : Entry) (rel : List String),
      findEntry p cs = some e → (rel ++ p, e) ∈ rglob cs rel := by
  intro p
  induction p with
  | nil => intro cs e rel h; simp [findEntry] at h
  | cons n rest ih =>
    intro cs e rel h
    cases rest with
    | nil =>
      simp only [findEntry] at h
      obtain ⟨pr, hpr, hsnd⟩ := Option.map_eq_some'.mp h
      obtain ⟨n0, e0⟩ := pr
      have hn0 : n0 = n := by
        have := List.find?_some hpr
        simpa using this
      subst hn0
      cases hsnd
      exact mem_rglob_of_mem rel (List.mem_of_find?_eq_some hpr)
    | cons r rs =>
      simp only [findEntry] at h
      cases hf : cs.find? (fun pr => pr.1 == n) with
      | none => rw [hf] at h; exact absurd h (by simp)
      | some pr =>
        rw [hf] at h
        obtain ⟨n0, e0⟩ := pr
        cases e0 with
        | file sz tx => exact absurd h (by simp)
        | symlink sz tx => exact absurd h (by simp)
        | dir cs' =>
          have hn0 : n0 = n := by
            have := List.find?_some hf
            simpa using this
          subst hn0
          have hsub := ih cs' e (rel ++ [n0]) h
          rw [show rel ++ n0 :: r :: rs = (rel ++ [n0]) ++ (r :: rs) by simp] at *
          exact sub_rglob rel (List.mem_of_find?_eq_some hf) hsub

theorem mem_included_files {cs : List (String × Entry)} {ignore_spec : PathSpec}
    {m : Nat} {p : List String} :
    p ∈ included_files cs ignore_spec m ↔
    ∃ e, (p, e) ∈ rglob cs [] ∧ e.is_dir = false ∧ e.is_symlink = false ∧
      ignore_spec p = false ∧ ¬(m < e.st_size) := by
  simp only [included_files, List.mem_filterMap]
  constructor
  · rintro ⟨⟨q, e⟩, hpe, hf⟩
    simp only at hf
    by_cases h1 : (e.is_dir || e.is_symlink) = true
    · rw [if_pos h1] at hf; cases hf
    rw [if_neg h1] at hf
    by_cases h2 : ignore_spec q = true
    · rw [if_pos h2] at hf; cases hf
    rw [if_neg h2] at hf
    by_cases h3 : m < e.st_size
    · rw [if_pos h3] at hf; cases hf
    rw [if_neg h3] at hf
    have hq : q = p := Option.some.inj hf
    subst hq
    simp only [Bool.or_eq_true] at h1
    push_neg at h1
    exact ⟨e, hpe, (Bool.not_eq_true _).mp h1.1, (Bool.not_eq_true _).mp h1.2,
      (Bool.not_eq_true _).mp h2, h3⟩
  · rintro ⟨e, hpe, h1, h2, h3, h4⟩
    refine ⟨(p, e), hpe, ?_⟩
    simp only [h1, h2]
    rw [if_neg (by simp), if_neg (by simp [h3]), if_neg h4]

/-! ### Well-formed directories: distinct paths in the walk -/

theorem wfChildren_cons {n : String} {e : Entry} {rest : List (String × Entry)}
    (h : wfChildren ((n, e) :: rest) = true) :
    n ∉ rest.map Prod.fst ∧ ('/' ∈ n.data → False) ∧ wfEntry e = true
      ∧ wfChildren rest = true := by
  simp only [wfChildren, Bool.and_eq_true, Bool.not_eq_true'] at h
  obtain ⟨⟨⟨h1, h2⟩, h3⟩, h4⟩ := h
  refine ⟨?_, ?_, h3, h4⟩
  · intro hmem
    have h5 : (rest.map Prod.fst).contains n = true := by
      simp only [List.contains]
      exact List.elem_iff.mpr hmem
    rw [h5] at h1
    cases h1
  · intro hmem
    have h5 : n.data.contains '/' = true := by
      simp only [List.contains]
      exact List.elem_iff.mpr hmem
    rw [h5] at h2
    cases h2

theorem wfEntry_dir {cs : List (String × Entry)} (h : wfEntry (Entry.dir cs) = true) :
    wfChildren cs = true := h

theorem sizeOf_pos_children (cs : List (String × Entry)) : 1 ≤ sizeOf cs := by
  cases cs <;> simp <;> omega

/-- Every walked path extends `rel` by a first component that names a top-level
entry, and all of its new components are slash-free when the tree is well-formed. -/
theorem rglob_shape (N : Nat) : ∀ (cs : List (String × Entry)), sizeOf cs ≤ N →
    wfChildren cs = true →
    ∀ (rel : List String) (pe : List String × Entry), pe ∈ rglob cs rel →
      ∃ n t, pe.1 = rel ++ n :: t ∧ n ∈ cs.map Prod.fst
        ∧ (∀ c ∈ n :: t, '/' ∈ c.data → False) := by
  induction N with
  | zero =>
    intro cs h
    exfalso
    have h2 := sizeOf_pos_children cs
    omega
  | succ N ih =>
    intro cs hN hwf rel pe hmem
    cases cs with
    | nil => simp [rglob] at hmem
    | cons pr rest =>
      obtain ⟨nm, e⟩ := pr
      obtain ⟨hn1, hn2, hn3, hn4⟩ := wfChildren_cons hwf
      simp only [rglob, List.append_eq, List.mem_append, List.mem_cons] at hmem
      rcases hmem with (heq | hsub) | hrest
      · subst heq
        exact ⟨nm, [], by simp, by simp, by simpa using hn2⟩
      · cases e with
        | file sz tx => simp [rglob_entry] at hsub
        | symlink sz tx => simp [rglob_entry] at hsub
        | dir cs' =>
          simp only [rglob_entry] at hsub
          have hsz : sizeOf cs' ≤ N := by
            simp only [List.cons.sizeOf_spec, Prod.mk.sizeOf_spec, Entry.dir.sizeOf_spec] at hN
            have := sizeOf_pos_children rest
            omega
          obtain ⟨n', t', hshape, _, hsl⟩ := ih cs' hsz (wfEntry_dir hn3) (rel ++ [nm]) pe hsub
          refine ⟨nm, n' :: t', by simp [hshape], by simp, ?_⟩
          intro c hc
          rcases List.mem_cons.mp hc with rfl | hc2
          · exact fun h => hn2 h
          · exact hsl c hc2
      · have hsz : sizeOf rest ≤ N := by
          simp only [List.cons.sizeOf_spec] at hN
          omega
        obtain ⟨n', t', hshape, hmem2, hsl⟩ := ih rest hsz hn4 rel pe hrest
        exact ⟨n', t', hshape, by simp [hmem2], hsl⟩

/-- In a well-formed tree, no two walked entries share a path. -/
theorem rglob_paths_nodup (N : Nat) : ∀ (cs : List (String × Entry)), sizeOf cs ≤ N →
    wfChildren cs = true → ∀ (rel : List String),
      ((rglob cs rel).map Prod.fst).Nodup := by
  induction N with
  | zero =>
    intro cs h
    exfalso
    have h2 := sizeOf_pos_children cs
    omega
  | succ N ih =>
    intro cs hN hwf rel
    cases cs with
    | nil => simp [rglob]
    | cons pr rest =>
      obtain ⟨nm, e⟩ := pr
      obtain ⟨hn1, hn2, hn3, hn4⟩ := wfChildren_cons hwf
      have hszr : sizeOf rest ≤ N := by
        simp only [List.cons.sizeOf_spec] at hN
        omega
      have hszsub : ∀ cs' : List (String × Entry), e = Entry.dir cs' → sizeOf cs' ≤ N := by
        intro cs' heq
        subst heq
        simp only [List.cons.sizeOf_spec, Prod.mk.sizeOf_spec,
          Entry.dir.sizeOf_spec] at hN
        have h5 := sizeOf_pos_children rest
        omega
      simp only [rglob, List.map_append, List.map_cons]
      rw [List.cons_append, List.nodup_cons]
      constructor
      · -- the head path occurs neither below this entry nor in the rest of the walk
        intro hmem
        rcases List.mem_append.mp hmem with hsub | hrest
        · cases e with
          | file sz tx => simp [rglob_entry] at hsub
          | symlink sz tx => simp [rglob_entry] at hsub
          | dir cs' =>
            simp only [rglob_entry] at hsub
            obtain ⟨q, hq, hq2⟩ := List.mem_map.mp hsub
            obtain ⟨n', t', hshape, _, _⟩ :=
              rglob_shape N cs' (hszsub cs' rfl) (wfEntry_dir hn3) (rel ++ [nm]) q hq
            rw [hq2] at hshape
            have h7 : ([] : List String) = n' :: t' := by
              have h5 : (rel ++ [nm]) ++ ([] : List String)
                  = (rel ++ [nm]) ++ (n' :: t') := by
                simpa using hshape.symm
              exact List.append_cancel_left h5
            cases h7
        · obtain ⟨pe2, hpe2, hpe2eq⟩ := List.mem_map.mp hrest
          obtain ⟨n2, t2, hshape2, hmem2, _⟩ := rglob_shape N rest hszr hn4 rel pe2 hpe2
          have hne : n2 ≠ nm := fun h => hn1 (h ▸ hmem2)
          rw [hpe2eq] at hshape2
          have h5 : [nm] = n2 :: t2 := by
            have h6 : rel ++ [nm] = rel ++ (n2 :: t2) := hshape2
            exact List.append_cancel_left h6
          injection h5 with h7 _
          exact hne h7.symm
      · rw [List.nodup_append]
        refine ⟨?_, ih rest hszr hn4 rel, ?_⟩
        · cases e with
          | file sz tx => simp [rglob_entry]
          | symlink sz tx => simp [rglob_entry]
          | dir cs' =>
            simp only [rglob_entry]
            exact ih cs' (hszsub cs' rfl) (wfEntry_dir hn3) (rel ++ [nm])
        · -- disjointness of this entry's subtree paths from the rest's paths
          intro q hqsub hq2
          obtain ⟨pe2, hpe2, hpe2eq⟩ := List.mem_map.mp hq2
          obtain ⟨n2, t2, hshape2, hmem2, _⟩ := rglob_shape N rest hszr hn4 rel pe2 hpe2
          have hne : n2 ≠ nm := fun h => hn1 (h ▸ hmem2)
          cases e with
          | file sz tx => simp [rglob_entry] at hqsub
          | symlink sz tx => simp [rglob_entry] at hqsub
          | dir cs' =>
            simp only [rglob_entry] at hqsub
            obtain ⟨pe1, hpe1, hpe1eq⟩ := List.mem_map.mp hqsub
            obtain ⟨n1, t1, hshape1, _, _⟩ :=
              rglob_shape N cs' (hszsub cs' rfl) (wfEntry_dir hn3) (rel ++ [nm]) pe1 hpe1
            rw [hpe1eq] at hshape1
            rw [hpe2eq] at hshape2
            have h5 : nm :: n1 :: t1 = n2 :: t2 := by
              have h6 : rel ++ (nm :: n1 :: t1) = rel ++ (n2 :: t2) := by
                rw [← hshape2, hshape1]
                simp
              exact List.append_cancel_left h6
            injection h5 with h7 _
            exact hne h7.symm

theorem nodup_map_eq {α β : Type} {f : α → β} :
    ∀ {l : List α}, (l.map f).Nodup → ∀ {a b : α}, a ∈ l → b ∈ l → f a = f b → a = b := by
  intro l
  induction l with
  | nil => intro _ a b ha; simp at ha
  | cons x t ih =>
    intro hnd a b ha hb hf
    simp only [List.map_cons, List.nodup_cons] at hnd
    obtain ⟨hx, ht⟩ := hnd
    rcases List.mem_cons.mp ha with rfl | ha2 <;> rcases List.mem_cons.mp hb with rfl | hb2
    · rfl
    · exfalso
      apply hx
      rw [hf]
      exact List.mem_map_of_mem f hb2
    · exfalso
      apply hx
      rw [← hf]
      exact List.mem_map_of_mem f ha2
    · exact ih ht ha2 hb2 hf

/-- In a well-formed tree, the entry walked at a given path is unique. -/
theorem rglob_entry_unique {cs : List (String × Entry)} (hwf : wfChildren cs = true)
    {p : List String} {e e' : Entry}
    (h1 : (p, e) ∈ rglob cs []) (h2 : (p, e') ∈ rglob cs []) : e = e' := by
  have hnd := rglob_paths_nodup (sizeOf cs) cs le_rfl hwf []
  have h3 := nodup_map_eq hnd h1 h2 rfl
  exact congrArg Prod.snd h3

/-! ### Section splitting and sorted-path membership -/

theorem file_contents_section_append (cs : List (String × Entry)) :
    ∀ (l1 l2 : List (List String)),
      file_contents_section cs (l1 ++ l2)
        = file_contents_section cs l1 ++ file_contents_section cs l2 := by
  intro l1 l2
  induction l1 with
  | nil => simp [file_contents_section]
  | cons p t ih => simp [file_contents_section, ih, String.append_assoc]

theorem mem_sortPaths {p : List String} {l : List (List String)} :
    p ∈ sortPaths l ↔ p ∈ l := mem_sortLe

/-! ### Claim C1 -/

/-- Claim C1, as stated, fails on the code: with a supplied but non-existent
context-description file the run does fail fatally and writes no document byte,
but `open(args.output, 'w')` has already truncated the destination, so the
existing content there is destroyed — after the aborted run the destination no
longer holds its prior content. -/
theorem c1_counterexample :
    (run fsC1 argsC1).1 = Except.error () ∧
    fsC1.files.lookup (resolvePath fsC1.cwd argsC1.output) = some "old contents" ∧
    (run fsC1 argsC1).2 ≠ "old contents" := by
  refine ⟨rfl, rfl, ?_⟩
  decide

/-- Claim C1 (amended): if a context-description file path is supplied (non-empty)
but the file does not exist, the run fails fatally and no document byte is
written, but the output destination has already been opened for writing and is
left truncated to empty — any existing content there is destroyed. -/
theorem c1_amended (fs : FileSystem) (args : Args) (cf : String)
    (hcf : args.context_file = some cf) (hne : cf ≠ "")
    (hmiss : fs.files.lookup (resolvePath fs.cwd cf) = none) :
    run fs args = (Except.error (), "") := by
  simp only [run, hcf, hmiss, if_neg hne]

/-- Witness for C1 (amended) at the concrete filesystem. -/
theorem c1_amended_witness :
    argsC1.context_file = some "missing.md" ∧
    fsC1.files.lookup (resolvePath fsC1.cwd "missing.md") = none ∧
    run fsC1 argsC1 = (Except.error (), "") :=
  ⟨rfl, rfl, c1_amended fsC1 argsC1 "missing.md" rfl (by decide) rfl⟩

/-! ### Claim C3 -/

/-- Claim C3: for every path (relative to the processing root) matched by the
compiled ignore rules, the corresponding entry appears in the rendered tree with
`ignored` set, and the file is absent from the file-contents section, regardless
of its size. -/
theorem c3_ignored_in_tree_absent_from_contents (cs : List (String × Entry))
    (ignore_spec : PathSpec) (m : Nat) (name : String) (p : List String) (e : Entry)
    (hfind : findEntry p cs = some e) (hmatch : ignore_spec p = true) :
    (∃ t, TreeNode.find p (build_directory_tree name cs ignore_spec m []) = some t ∧
      t.ignored = true) ∧
    p ∉ included_files cs ignore_spec m := by
  constructor
  · obtain ⟨t, ht, h1, _, _, _⟩ := find_build ignore_spec m p cs e name [] hfind
    refine ⟨t, ht, ?_⟩
    rw [h1]
    simpa using hmatch
  · intro hmem
    obtain ⟨e', _, _, _, h3, _⟩ := mem_included_files.mp hmem
    rw [hmatch] at h3
    cases h3

/-- Witness for C3: `secret.txt` is matched, flagged in the tree, not collected. -/
theorem c3_witness :
    findEntry ["secret.txt"] exChildren = some (.file 10 (some "token")) ∧
    exSpec ["secret.txt"] = true ∧
    ((∃ t, TreeNode.find ["secret.txt"]
        (build_directory_tree "proj" exChildren exSpec 102400 []) = some t ∧
        t.ignored = true) ∧
      ["secret.txt"] ∉ included_files exChildren exSpec 102400) :=
  ⟨rfl, rfl,
    c3_ignored_in_tree_absent_from_contents exChildren exSpec 102400 "proj"
      ["secret.txt"] (.file 10 (some "token")) rfl rfl⟩

/-! ### Claim C4 -/

/-- Claim C4: a symbolic link under the target directory never appears in the
collected file list — neither in walk order nor in the sorted order the content
writer iterates — and so contributes no content block, even when its target would
otherwise be eligible (any size, any text, any matcher verdict). -/
theorem c4_symlink_never_collected (cs : List (String × Entry))
    (ignore_spec : PathSpec) (m : Nat) (hwf : wfChildren cs = true)
    (p : List String) (sz : Nat) (tx : Option String)
    (hfind : findEntry p cs = some (.symlink sz tx)) :
    p ∉ included_files cs ignore_spec m ∧
    p ∉ sortPaths (included_files cs ignore_spec m) := by
  have hnot : p ∉ included_files cs ignore_spec m := by
    intro hmem
    obtain ⟨e', hmem', h1, h2, _, _⟩ := mem_included_files.mp hmem
    have hmem2 : (p, Entry.symlink sz tx) ∈ rglob cs [] := by
      have h3 := findEntry_mem_rglob p cs (.symlink sz tx) [] hfind
      simpa using h3
    have heq := rglob_entry_unique hwf hmem' hmem2
    subst heq
    simp [Entry.is_symlink] at h2
  exact ⟨hnot, fun hmem => hnot (mem_sortPaths.mp hmem)⟩

/-- Witness for C4: the symlink `sub/ln` (eligible target: small, decodable,
unmatched) is collected nowhere. -/
theorem c4_witness :
    wfChildren exChildren = true ∧
    findEntry ["sub", "ln"] exChildren = some (.symlink 5 (some "target text")) ∧
    (["sub", "ln"] ∉ included_files exChildren exSpec 102400 ∧
      ["sub", "ln"] ∉ sortPaths (included_files exChildren exSpec 102400)) :=
  ⟨rfl, rfl,
    c4_symlink_never_collected exChildren exSpec 102400 rfl ["sub", "ln"] 5
      (some "target text") rfl⟩

/-! ### Claim C10 -/

/-- Claim C10: the ignore-rules file path is used exactly as given on the command
line — resolved against the current working directory, never joined with or
resolved against the target directory; in particular, with the default
`.context.ignore` and a target directory (`/repo`) other than the current
directory, the rules are read from the current directory's copy (`a.txt`), not
from the target's (`b.txt`). -/
theorem c10_ignore_path_from_cwd :
    (∀ (fs : FileSystem) (ignore_file : String), isAbsolute ignore_file = false →
      load_ignore_spec fs ignore_file
        = match fs.files.lookup (fs.cwd ++ "/" ++ ignore_file) with
          | some text => compileLines text
          | none => fun _ => false) ∧
    load_ignore_spec fsC10 defaultArgs.ignore_file ["a.txt"] = true ∧
    load_ignore_spec fsC10 defaultArgs.ignore_file ["b.txt"] = false := by
  refine ⟨?_, rfl, rfl⟩
  intro fs ignore_file h
  simp only [load_ignore_spec, resolvePath, h, Bool.false_eq_true, if_false]

/-- Witness for C10 at the default ignore-file name. -/
theorem c10_witness :
    isAbsolute ".context.ignore" = false ∧
    load_ignore_spec fsC10 ".context.ignore"
      = match fsC10.files.lookup (fsC10.cwd ++ "/" ++ ".context.ignore") with
        | some text => compileLines text
        | none => fun _ => false :=
  ⟨rfl, c10_ignore_path_from_cwd.1 fsC10 ".context.ignore" rfl⟩

/-! ### Claim C9 -/

/-- Claim C9: the root TreeNode returned by the tree builder always has
`ignored = false` and `size_exceeded = false` — the matcher is never consulted
for the target directory itself, only for its descendants — so the root line of
the rendered tree never carries an annotation, even if the target directory's
own name would match an ignore rule (the statement holds for every matcher). -/
theorem c9_root_never_annotated (name : String) (cs : List (String × Entry))
    (ignore_spec : PathSpec) (m : Nat) (rel : List String) :
    (build_directory_tree name cs ignore_spec m rel).ignored = false ∧
    (build_directory_tree name cs ignore_spec m rel).size_exceeded = false ∧
    ∃ rest, format_tree (build_directory_tree name cs ignore_spec m rel) "" true
      = "└── 📁 " ++ name ++ "\n" ++ rest := by
  refine ⟨rfl, rfl,
    format_children (sortChildren (build_children ignore_spec m cs rel)) "    ", ?_⟩
  rw [show build_directory_tree name cs ignore_spec m rel
      = TreeNode.mk name true (build_children ignore_spec m cs rel) false false from rfl]
  rw [format_tree]
  simp only [String.append_assoc]
  rfl

/-! ### Claim C2 -/

/-- Claim C2: the size cutoff is an inclusive upper bound — a file strictly
larger than the maximum appears in the rendered tree with `size_exceeded` set and
is absent from the file-contents section, while a file of exactly the maximum
size that is otherwise eligible is collected, and when decodable its contents are
emitted as a block of the file-contents section. -/
theorem c2_size_cutoff_inclusive (cs : List (String × Entry)) (ignore_spec : PathSpec)
    (m : Nat) (name : String) (hwf : wfChildren cs = true) :
    (∀ (p : List String) (sz : Nat) (tx : Option String),
       findEntry p cs = some (.file sz tx) → m < sz →
       (∃ t, TreeNode.find p (build_directory_tree name cs ignore_spec m []) = some t ∧
          t.size_exceeded = true) ∧
       p ∉ included_files cs ignore_spec m) ∧
    (∀ (p : List String) (tx : Option String),
       findEntry p cs = some (.file m tx) → ignore_spec p = false →
       p ∈ included_files cs ignore_spec m ∧
       ∀ content, tx = some content →
         ∃ s1 s2, file_contents_section cs (sortPaths (included_files cs ignore_spec m))
           = s1 ++ ("## File: " ++ joinPath p ++ "\n" ++ "```" ++ extTag p ++ "\n"
               ++ content ++ "\n" ++ "```\n\n") ++ s2) := by
  constructor
  · intro p sz tx hfind hsz
    constructor
    · obtain ⟨t, ht, _, h2, _, _⟩ := find_build ignore_spec m p cs _ name [] hfind
      refine ⟨t, ht, ?_⟩
      rw [h2]
      simp [Entry.is_file, Entry.st_size, hsz]
    · intro hmem
      obtain ⟨e', hmem', _, _, _, h4⟩ := mem_included_files.mp hmem
      have hmem2 : (p, Entry.file sz tx) ∈ rglob cs [] := by
        have h5 := findEntry_mem_rglob p cs _ [] hfind
        simpa using h5
      have heq := rglob_entry_unique hwf hmem' hmem2
      subst heq
      exact h4 (by simpa [Entry.st_size] using hsz)
  · intro p tx hfind hspec
    have hmem2 : (p, Entry.file m tx) ∈ rglob cs [] := by
      have h5 := findEntry_mem_rglob p cs _ [] hfind
      simpa using h5
    have hmem : p ∈ included_files cs ignore_spec m :=
      mem_included_files.mpr
        ⟨Entry.file m tx, hmem2, rfl, rfl, hspec, by simp [Entry.st_size]⟩
    refine ⟨hmem, ?_⟩
    intro content hcontent
    subst hcontent
    obtain ⟨s, t2, hsplit⟩ := List.append_of_mem (mem_sortPaths.mpr hmem)
    refine ⟨file_contents_section cs s, file_contents_section cs t2, ?_⟩
    rw [hsplit, file_contents_section_append]
    rw [show file_contents_section cs (p :: t2)
        = render_file_block cs p ++ file_contents_section cs t2 from rfl]
    rw [show render_file_block cs p
        = "## File: " ++ joinPath p ++ "\n" ++ "```" ++ extTag p ++ "\n"
            ++ content ++ "\n" ++ "```\n\n" from by
      simp [render_file_block, hfind, Entry.read_text]]
    simp [String.append_assoc]

/-- Witness for C2 with maximum size 50: `b.py` (200000 bytes) is flagged and
excluded; `a.py` (exactly 50 bytes) is collected and its contents appear. -/
theorem c2_witness :
    wfChildren exChildren = true ∧
    (50 : Nat) < 200000 ∧
    ((∃ t, TreeNode.find ["b.py"]
        (build_directory_tree "proj" exChildren exSpec 50 []) = some t ∧
        t.size_exceeded = true) ∧
      ["b.py"] ∉ included_files exChildren exSpec 50) ∧
    (["a.py"] ∈ included_files exChildren exSpec 50 ∧
      ∃ s1 s2, file_contents_section exChildren
          (sortPaths (included_files exChildren exSpec 50))
        = s1 ++ ("## File: " ++ joinPath ["a.py"] ++ "\n" ++ "```" ++ extTag ["a.py"]
            ++ "\n" ++ "print(1)\n" ++ "\n" ++ "```\n\n") ++ s2) := by
  refine ⟨rfl, by decide, ?_, ?_⟩
  · exact (c2_size_cutoff_inclusive exChildren exSpec 50 "proj" rfl).1
      ["b.py"] 200000 (some "print(2)\n") rfl (by decide)
  · obtain ⟨h1, h2⟩ := (c2_size_cutoff_inclusive exChildren exSpec 50 "proj" rfl).2
      ["a.py"] (some "print(1)\n") rfl rfl
    exact ⟨h1, h2 "print(1)\n" rfl⟩

/-! ### Claim C6 -/

/-- Claim C6: a collected file whose contents cannot be decoded is silently
skipped from the content section — it produces no heading and no fenced block,
its list position contributing nothing — and the run continues and completes;
the only fatal abort of a run is the missing context-description file, so decode
failures are the only locally-recovered error class. -/
theorem c6_decode_failure_skipped :
    (∀ (cs : List (String × Entry)) (p : List String) (e : Entry),
       findEntry p cs = some e → e.read_text = none →
       render_file_block cs p = "" ∧
       ∀ l1 l2, file_contents_section cs (l1 ++ p :: l2)
         = file_contents_section cs (l1 ++ l2)) ∧
    (∀ (fs : FileSystem) (args : Args),
       (run fs args).1 = Except.error () ↔
       ∃ cf, args.context_file = some cf ∧ cf ≠ "" ∧
         fs.files.lookup (resolvePath fs.cwd cf) = none) := by
  constructor
  · intro cs p e hfind hread
    have hblock : render_file_block cs p = "" := by
      simp [render_file_block, hfind, hread]
    refine ⟨hblock, ?_⟩
    intro l1 l2
    rw [file_contents_section_append, file_contents_section_append]
    rw [show file_contents_section cs (p :: l2)
        = render_file_block cs p ++ file_contents_section cs l2 from rfl]
    rw [hblock]
    simp
  · intro fs args
    cases hctx : args.context_file with
    | none => simp [run, hctx]
    | some cf =>
      by_cases hne : cf = ""
      · subst hne
        simp [run, hctx]
      · cases hlook : fs.files.lookup (resolvePath fs.cwd cf) with
        | none =>
          simp only [run, hctx, if_neg hne, hlook]
          constructor
          · intro _
            exact ⟨cf, rfl, hne, hlook⟩
          · intro _
            trivial
        | some text =>
          simp only [run, hctx, if_neg hne, hlook]
          constructor
          · intro h
            exact absurd h (by simp)
          · rintro ⟨cf', hcf', _, hlook'⟩
            have h9 : cf' = cf := by
              injection hcf' with h8
              exact h8.symm
            subst h9
            rw [hlook] at hlook'
            cases hlook'

/-- Witness for C6: the undecodable `sub/c.md` renders no block and vanishes from
any section position, and the run over `fsC1` errs exactly because its
context-description file is missing. -/
theorem c6_witness :
    findEntry ["sub", "c.md"] exChildren = some (.file 7 none) ∧
    (render_file_block exChildren ["sub", "c.md"] = "" ∧
      ∀ l1 l2, file_contents_section exChildren (l1 ++ ["sub", "c.md"] :: l2)
        = file_contents_section exChildren (l1 ++ l2)) ∧
    ((run fsC1 argsC1).1 = Except.error () ↔
      ∃ cf, argsC1.context_file = some cf ∧ cf ≠ "" ∧
        fsC1.files.lookup (resolvePath fsC1.cwd cf) = none) :=
  ⟨rfl,
    c6_decode_failure_skipped.1 exChildren ["sub", "c.md"] (.file 7 none) rfl rfl,
    c6_decode_failure_skipped.2 fsC1 argsC1⟩

/-! ### Claim C8 -/

/-- Claim C8: the output document is assembled in fixed order — an optional
Context Overview section holding the description file's contents (only when the
flag is supplied), then the Codebase Structure section with the tree diagram in a
fenced block, then the File Contents section iterating the collected files in
sorted path order. -/
theorem c8_document_assembly (fs : FileSystem) (args : Args) :
    (args.context_file = none →
      (run fs args).2
        = "# Codebase Structure\n\n" ++ "```\n"
          ++ format_tree (build_directory_tree fs.target_name fs.target_children
                (load_ignore_spec fs args.ignore_file) args.max_size []) "" true
          ++ "```\n\n" ++ "# File Contents\n\n"
          ++ file_contents_section fs.target_children
              (sortPaths (included_files fs.target_children
                (load_ignore_spec fs args.ignore_file) args.max_size))) ∧
    (∀ cf text, args.context_file = some cf → cf ≠ "" →
      fs.files.lookup (resolvePath fs.cwd cf) = some text →
      (run fs args).2
        = "# Context Overview\n\n" ++ text ++ "\n\n"
          ++ ("# Codebase Structure\n\n" ++ "```\n"
            ++ format_tree (build_directory_tree fs.target_name fs.target_children
                  (load_ignore_spec fs args.ignore_file) args.max_size []) "" true
            ++ "```\n\n" ++ "# File Contents\n\n"
            ++ file_contents_section fs.target_children
                (sortPaths (included_files fs.target_children
                  (load_ignore_spec fs args.ignore_file) args.max_size)))) := by
  constructor
  · intro h
    simp [run, h, doc_body, String.append_assoc]
  · intro cf text h hne hlook
    simp [run, h, hne, hlook, doc_body, String.append_assoc]

/-- Witness for C8 in both modes over the same filesystem: no context file, and a
present context file. -/
theorem c8_witness :
    defaultArgs.context_file = none ∧
    (run fsC1 defaultArgs).2
      = "# Codebase Structure\n\n" ++ "```\n"
        ++ format_tree (build_directory_tree fsC1.target_name fsC1.target_children
              (load_ignore_spec fsC1 defaultArgs.ignore_file) defaultArgs.max_size [])
            "" true
        ++ "```\n\n" ++ "# File Contents\n\n"
        ++ file_contents_section fsC1.target_children
            (sortPaths (included_files fsC1.target_children
              (load_ignore_spec fsC1 defaultArgs.ignore_file) defaultArgs.max_size)) :=
  ⟨rfl, (c8_document_assembly fsC1 defaultArgs).1 rfl⟩

/-! ### Claim C5 -/

/-- Claim C5: at every directory level of the rendered tree, siblings are ordered
with all directories before all files, and within each kind in reverse
lexicographic name order — no rendered sibling has a strictly smaller
`(is_dir, name)` key than a later one; on the example siblings
{b.txt, a.txt, sub/ (dir)} the rendered order is sub, then b.txt, then a.txt. -/
theorem c5_sibling_order :
    (∀ l : List TreeNode, (sortChildren l).Pairwise (fun x y => keyLT x y = false)) ∧
    format_tree exSiblings "" true
      = "└── 📁 root\n    ├── 📁 sub\n    ├── 📄 b.txt\n    └── 📄 a.txt\n" := by
  constructor
  · intro l
    have hp := @sortLe_pairwise TreeNode (fun a b => ! keyLT a b)
      (fun a b => nodeLe_total a b) (fun a b c => nodeLe_trans a b c) l
    exact hp.imp (fun h => by simpa using h)
  · simp [exSiblings, format_tree, format_children, sortChildren, sortLe, insertLe,
      keyLT, strLT, chLT, charLT, TreeNode.name, TreeNode.is_dir]

/-! ### Canonicalization: basic facts -/

theorem canonList_eq_map : ∀ cs : List (String × Entry),
    canonList cs = cs.map (fun pr => (pr.1, canonEntry pr.2)) := by
  intro cs
  induction cs with
  | nil => rfl
  | cons pr rest ih =>
    obtain ⟨n, e⟩ := pr
    simp [canonList, ih]

theorem canonEntry_is_dir (e : Entry) : (canonEntry e).is_dir = e.is_dir := by
  cases e <;> rfl

theorem canonEntry_is_symlink (e : Entry) : (canonEntry e).is_symlink = e.is_symlink := by
  cases e <;> rfl

theorem canonEntry_st_size (e : Entry) : (canonEntry e).st_size = e.st_size := by
  cases e <;> rfl

theorem canonEntry_read_text (e : Entry) : (canonEntry e).read_text = e.read_text := by
  cases e <;> rfl

theorem pairKeyLT_canon (a b : String × Entry) :
    pairKeyLT (a.1, canonEntry a.2) (b.1, canonEntry b.2) = pairKeyLT a b := by
  simp [pairKeyLT, canonEntry_is_dir]

theorem keyLT_build_child (ignore_spec : PathSpec) (m : Nat) (rel : List String)
    (a b : String × Entry) :
    keyLT (build_child ignore_spec m rel a) (build_child ignore_spec m rel b)
      = pairKeyLT a b := by
  obtain ⟨na, ea⟩ := a
  obtain ⟨nb, eb⟩ := b
  simp [keyLT, pairKeyLT, build_child_name, build_child_is_dir]

/-! ### The rendered tree is invariant under enumeration order -/

theorem sortChildren_build (ignore_spec : PathSpec) (m : Nat) (rel : List String)
    (cs : List (String × Entry)) :
    sortChildren (build_children ignore_spec m cs rel)
      = (sortPairsKD cs).map (build_child ignore_spec m rel) := by
  rw [build_children_eq_map]
  exact sortLe_map_comm (fun a b => by rw [keyLT_build_child]) cs

theorem sortPairsKD_idem (l : List (String × Entry)) :
    sortPairsKD (sortPairsKD l) = sortPairsKD l :=
  sortLe_idem (fun a b => pairLe_total a b) (fun a b c => pairLe_trans a b c) l

theorem sortPairsKD_canonList (cs : List (String × Entry)) :
    sortPairsKD (canonList cs) = canonList (sortPairsKD cs) := by
  rw [canonList_eq_map, canonList_eq_map]
  exact sortLe_map_comm (fun a b => by rw [pairKeyLT_canon]) cs

theorem format_children_map_congr {α : Type} (f g : α → TreeNode) :
    ∀ (L : List α) (pre : String),
      (∀ x ∈ L, ∀ pre2 last, format_tree (f x) pre2 last = format_tree (g x) pre2 last) →
      format_children (L.map f) pre = format_children (L.map g) pre := by
  intro L
  induction L with
  | nil => intro pre _; rfl
  | cons x t ih =>
    intro pre hall
    cases t with
    | nil =>
      simp only [List.map_cons, List.map_nil, format_children]
      exact hall x (by simp) pre true
    | cons y t2 =>
      simp only [List.map_cons, format_children]
      rw [hall x (by simp) pre false]
      have h2 := ih pre (fun z hz => hall z (by simp [hz]))
      simp only [List.map_cons] at h2
      rw [h2]

theorem sizeOf_lt_of_dir_mem {n : String} {cs' cs : List (String × Entry)}
    (h : (n, Entry.dir cs') ∈ cs) : sizeOf cs' < sizeOf cs := by
  have h1 := List.sizeOf_lt_of_mem h
  simp only [Prod.mk.sizeOf_spec, Entry.dir.sizeOf_spec] at h1
  omega

/-- The rendered subtree of any directory node is unchanged when the directory's
enumerated children are replaced by their canonical form: the renderer re-sorts
every sibling list, so only the canonical form matters. -/
theorem format_build_normalize (N : Nat) : ∀ (cs : List (String × Entry)),
    sizeOf cs ≤ N →
    ∀ (b : Bool) (name : String) (ignore_spec : PathSpec) (m : Nat)
      (rel : List String) (pre : String) (last : Bool),
      format_tree ((build_directory_tree name cs ignore_spec m rel).setIgnored b)
          pre last
        = format_tree ((build_directory_tree name (normalizeChildren cs) ignore_spec
              m rel).setIgnored b) pre last := by
  induction N with
  | zero =>
    intro cs h
    exfalso
    have h2 := sizeOf_pos_children cs
    omega
  | succ N ih =>
    intro cs hN b name ignore_spec m rel pre last
    rw [show (build_directory_tree name cs ignore_spec m rel).setIgnored b
        = TreeNode.mk name true (build_children ignore_spec m cs rel) b false from rfl]
    rw [show (build_directory_tree name (normalizeChildren cs) ignore_spec m
            rel).setIgnored b
        = TreeNode.mk name true (build_children ignore_spec m (normalizeChildren cs)
            rel) b false from rfl]
    rw [format_tree, format_tree]
    simp only
    rw [sortChildren_build, sortChildren_build]
    rw [show sortPairsKD (normalizeChildren cs) = normalizeChildren cs from
      sortPairsKD_idem (canonList cs)]
    rw [show (normalizeChildren cs : List (String × Entry))
        = canonList (sortPairsKD cs) from sortPairsKD_canonList cs]
    rw [canonList_eq_map, List.map_map]
    have hall : ∀ x ∈ sortPairsKD cs, ∀ pre2 last2,
        format_tree (build_child ignore_spec m rel x) pre2 last2
          = format_tree ((build_child ignore_spec m rel
              ∘ fun pr => (pr.1, canonEntry pr.2)) x) pre2 last2 := by
      intro x hx pre2 last2
      obtain ⟨n, e⟩ := x
      cases e with
      | file sz tx => rfl
      | symlink sz tx => rfl
      | dir cs' =>
        have hmem : (n, Entry.dir cs') ∈ cs := mem_sortLe.mp hx
        have hsz : sizeOf cs' ≤ N := by
          have h2 := sizeOf_lt_of_dir_mem hmem
          omega
        have h3 := ih cs' hsz (ignore_spec (rel ++ [n])) n ignore_spec m (rel ++ [n])
          pre2 last2
        simp only [Function.comp]
        rw [show build_child ignore_spec m rel (n, Entry.dir cs')
            = (build_directory_tree n cs' ignore_spec m (rel ++ [n])).setIgnored
                (ignore_spec (rel ++ [n])) from rfl]
        rw [show build_child ignore_spec m rel (n, canonEntry (Entry.dir cs'))
            = (build_directory_tree n (normalizeChildren cs') ignore_spec m
                (rel ++ [n])).setIgnored (ignore_spec (rel ++ [n])) from rfl]
        exact h3
    rw [format_children_map_congr (build_child ignore_spec m rel)
      (build_child ignore_spec m rel ∘ fun pr => (pr.1, canonEntry pr.2))
      (sortPairsKD cs) _ hall]

/-! ### Injectivity of path rendering on slash-free components -/

theorem chSplit : ∀ (a c u v : List Char), '/' ∉ a → '/' ∉ c →
    a ++ '/' :: u = c ++ '/' :: v → a = c ∧ u = v := by
  intro a
  induction a with
  | nil =>
    intro c u v _ hc h
    cases c with
    | nil => simpa using h
    | cons x xs =>
      simp only [List.nil_append, List.cons_append, List.cons.injEq] at h
      exfalso
      exact hc (h.1 ▸ List.mem_cons_self x xs)
  | cons x xs ih =>
    intro c u v ha hc h
    cases c with
    | nil =>
      simp only [List.cons_append, List.nil_append, List.cons.injEq] at h
      exfalso
      exact ha (h.1 ▸ List.mem_cons_self x xs)
    | cons y ys =>
      simp only [List.cons_append, List.cons.injEq] at h
      obtain ⟨rfl, h2⟩ := h
      have ha2 : '/' ∉ xs := fun hm => ha (List.mem_cons_of_mem _ hm)
      have hc2 : '/' ∉ ys := fun hm => hc (List.mem_cons_of_mem _ hm)
      obtain ⟨h3, h4⟩ := ih ys u v ha2 hc2 h2
      exact ⟨by rw [h3], h4⟩

theorem joinPath_cons_data (a b : String) (t : List String) :
    (joinPath (a :: b :: t)).data = a.data ++ '/' :: (joinPath (b :: t)).data := by
  rw [show joinPath (a :: b :: t) = a ++ "/" ++ joinPath (b :: t) from rfl]
  rw [String.data_append, String.data_append]
  simp

theorem joinPath_inj : ∀ (p q : List String), p ≠ [] → q ≠ [] →
    (∀ c ∈ p, '/' ∉ c.data) → (∀ c ∈ q, '/' ∉ c.data) →
    joinPath p = joinPath q → p = q := by
  intro p
  induction p with
  | nil => intro q h; exact absurd rfl h
  | cons a s ih =>
    intro q _ hqne hp hq hj
    cases q with
    | nil => exact absurd rfl hqne
    | cons c t =>
      cases s with
      | nil =>
        cases t with
        | nil =>
          have h1 : a = c := hj
          rw [h1]
        | cons c2 t2 =>
          exfalso
          have hd := congrArg String.data hj
          rw [joinPath_cons_data] at hd
          have h1 : '/' ∈ a.data := by
            rw [show (joinPath [a]).data = a.data from rfl] at hd
            rw [hd]
            exact List.mem_append_right _ (List.mem_cons_self _ _)
          exact hp a (by simp) h1
      | cons a2 s2 =>
        cases t with
        | nil =>
          exfalso
          have hd := congrArg String.data hj
          rw [joinPath_cons_data] at hd
          have h1 : '/' ∈ c.data := by
            rw [show (joinPath [c]).data = c.data from rfl] at hd
            rw [← hd]
            exact List.mem_append_right _ (List.mem_cons_self _ _)
          exact hq c (by simp) h1
        | cons c2 t2 =>
          have hd := congrArg String.data hj
          rw [joinPath_cons_data, joinPath_cons_data] at hd
          obtain ⟨h1, h2⟩ := chSplit a.data c.data _ _ (hp a (by simp)) (hq c (by simp)) hd
          have ha : a = c := str_eq_of_data h1
          have hjt : joinPath (a2 :: s2) = joinPath (c2 :: t2) := str_eq_of_data h2
          have ht := ih (c2 :: t2) (by simp) (by simp)
            (fun x hx => hp x (by simp [hx])) (fun x hx => hq x (by simp [hx])) hjt
          rw [ha, ht]

/-- Every collected path is non-empty with slash-free components. -/
theorem included_slash_free {cs : List (String × Entry)} {ignore_spec : PathSpec}
    {m : Nat} (hwf : wfChildren cs = true) {p : List String}
    (h : p ∈ included_files cs ignore_spec m) :
    p ≠ [] ∧ ∀ c ∈ p, '/' ∉ c.data := by
  obtain ⟨e, hmem, _, _, _, _⟩ := mem_included_files.mp h
  obtain ⟨n, t, hshape, _, hsl⟩ := rglob_shape (sizeOf cs) cs le_rfl hwf [] (p, e) hmem
  simp only [List.nil_append] at hshape
  subst hshape
  exact ⟨by simp, fun c hc hmem2 => hsl c hc hmem2⟩

/-! ### The collected list is a permutation invariant of the canonical form -/

theorem rglob_perm {cs ds : List (String × Entry)} (h : cs.Perm ds) :
    ∀ rel, (rglob cs rel).Perm (rglob ds rel) := by
  induction h with
  | nil => intro rel; exact List.Perm.refl _
  | cons x h ih =>
    intro rel
    obtain ⟨n, e⟩ := x
    simp only [rglob]
    exact List.Perm.append_left _ (ih rel)
  | swap x y l =>
    intro rel
    obtain ⟨nx, ex⟩ := x
    obtain ⟨ny, ey⟩ := y
    simp only [rglob]
    rw [← List.append_assoc, ← List.append_assoc]
    exact List.Perm.append_right _ List.perm_append_comm
  | trans h1 h2 ih1 ih2 =>
    intro rel
    exact (ih1 rel).trans (ih2 rel)

theorem rglob_canonList (N : Nat) : ∀ (cs : List (String × Entry)), sizeOf cs ≤ N →
    ∀ rel, (rglob (canonList cs) rel).Perm
      ((rglob cs rel).map (fun pe => (pe.1, canonEntry pe.2))) := by
  induction N with
  | zero =>
    intro cs h
    exfalso
    have h2 := sizeOf_pos_children cs
    omega
  | succ N ih =>
    intro cs hN rel
    cases cs with
    | nil => simp [canonList, rglob]
    | cons pr rest =>
      obtain ⟨n, e⟩ := pr
      have hszr : sizeOf rest ≤ N := by
        simp only [List.cons.sizeOf_spec] at hN
        omega
      simp only [canonList, rglob, List.map_append, List.map_cons]
      have hsub : (rglob_entry (canonEntry e) (rel ++ [n])).Perm
          ((rglob_entry e (rel ++ [n])).map (fun pe => (pe.1, canonEntry pe.2))) := by
        cases e with
        | file sz tx => simp [canonEntry, rglob_entry]
        | symlink sz tx => simp [canonEntry, rglob_entry]
        | dir cs' =>
          have hsz : sizeOf cs' ≤ N := by
            simp only [List.cons.sizeOf_spec, Prod.mk.sizeOf_spec,
              Entry.dir.sizeOf_spec] at hN
            have h5 := sizeOf_pos_children rest
            omega
          simp only [canonEntry, rglob_entry]
          have hp1 := rglob_perm
            (sortLe_perm (fun a b => ! pairKeyLT a b) (canonList cs')) (rel ++ [n])
          exact hp1.trans (ih cs' hsz (rel ++ [n]))
      exact List.Perm.append (hsub.cons _) (ih rest hszr rel)

theorem included_normalize_perm (cs : List (String × Entry)) (ignore_spec : PathSpec)
    (m : Nat) :
    (included_files (normalizeChildren cs) ignore_spec m).Perm
      (included_files cs ignore_spec m) := by
  have h1 : (rglob (normalizeChildren cs) []).Perm
      ((rglob cs []).map (fun pe => (pe.1, canonEntry pe.2))) := by
    have h2 := rglob_perm
      (sortLe_perm (fun a b => ! pairKeyLT a b) (canonList cs)) ([] : List String)
    exact h2.trans (rglob_canonList (sizeOf cs) cs le_rfl [])
  unfold included_files
  have h3 := h1.filterMap (fun pe : List String × Entry =>
    if pe.2.is_dir || pe.2.is_symlink then none
    else if ignore_spec pe.1 then none
    else if m < pe.2.st_size then none
    else some pe.1)
  rw [List.filterMap_map] at h3
  have h4 : ((fun pe : List String × Entry =>
        if pe.2.is_dir || pe.2.is_symlink then none
        else if ignore_spec pe.1 then none
        else if m < pe.2.st_size then none
        else some pe.1) ∘ fun pe => (pe.1, canonEntry pe.2))
      = (fun pe : List String × Entry =>
        if pe.2.is_dir || pe.2.is_symlink then none
        else if ignore_spec pe.1 then none
        else if m < pe.2.st_size then none
        else some pe.1) := by
    funext pe
    simp [Function.comp, canonEntry_is_dir, canonEntry_is_symlink, canonEntry_st_size]
  rw [h4] at h3
  exact h3

/-- Sorting the collected paths erases the enumeration order: two well-formed
enumerations of the same filesystem yield the same sorted collected list. -/
theorem sortPaths_included_eq {cs ds : List (String × Entry)}
    (ignore_spec : PathSpec) (m : Nat)
    (hwf1 : wfChildren cs = true) (hwf2 : wfChildren ds = true)
    (hnorm : normalizeChildren cs = normalizeChildren ds) :
    sortPaths (included_files cs ignore_spec m)
      = sortPaths (included_files ds ignore_spec m) := by
  have hmid : (included_files (normalizeChildren cs) ignore_spec m).Perm
      (included_files (normalizeChildren ds) ignore_spec m) := by
    rw [hnorm]
  have hperm : (included_files cs ignore_spec m).Perm
      (included_files ds ignore_spec m) :=
    ((included_normalize_perm cs ignore_spec m).symm.trans hmid).trans
      (included_normalize_perm ds ignore_spec m)
  have hperm2 : (sortPaths (included_files cs ignore_spec m)).Perm
      (sortPaths (included_files ds ignore_spec m)) :=
    ((sortLe_perm pathLe (included_files cs ignore_spec m)).trans hperm).trans
      (sortLe_perm pathLe (included_files ds ignore_spec m)).symm
  apply pairwise_perm_eq hperm2
    (sortLe_pairwise (fun a b => pathLe_total a b) (fun a b c => pathLe_trans a b c) _)
    (sortLe_pairwise (fun a b => pathLe_total a b) (fun a b c => pathLe_trans a b c) _)
  intro a ha b hb hab hba
  simp only [pathLe, Bool.not_eq_true'] at hab hba
  exact partsLT_conn hba hab

/-! ### Per-file rendering is invariant under the canonical form -/

theorem wf_mem_entry : ∀ {cs : List (String × Entry)}, wfChildren cs = true →
    ∀ {n : String} {e : Entry}, (n, e) ∈ cs → wfEntry e = true := by
  intro cs
  induction cs with
  | nil => intro _ n e h; simp at h
  | cons pr rest ih =>
    intro hwf n e h
    obtain ⟨n0, e0⟩ := pr
    obtain ⟨_, _, h3, h4⟩ := wfChildren_cons hwf
    rcases List.mem_cons.mp h with heq | hmem
    · injection heq with h5 h6
      subst h6
      exact h3
    · exact ih h4 hmem

theorem wf_names_nodup : ∀ {cs : List (String × Entry)}, wfChildren cs = true →
    (cs.map Prod.fst).Nodup := by
  intro cs
  induction cs with
  | nil => intro _; simp
  | cons pr rest ih =>
    intro hwf
    obtain ⟨n0, e0⟩ := pr
    obtain ⟨h1, _, _, h4⟩ := wfChildren_cons hwf
    simp only [List.map_cons, List.nodup_cons]
    exact ⟨h1, ih h4⟩

theorem find?_name_perm {l l' : List (String × Entry)} (hnd : (l.map Prod.fst).Nodup)
    (hperm : l.Perm l') (n : String) :
    l.find? (fun pr => pr.1 == n) = l'.find? (fun pr => pr.1 == n) := by
  cases hf : l.find? (fun pr => pr.1 == n) with
  | none =>
    cases hf2 : l'.find? (fun pr => pr.1 == n) with
    | none => rfl
    | some pr =>
      have hmem := hperm.symm.subset (List.mem_of_find?_eq_some hf2)
      have hno := List.find?_eq_none.mp hf pr hmem
      rw [List.find?_some hf2] at hno
      exact absurd rfl hno
  | some pr =>
    cases hf2 : l'.find? (fun pr => pr.1 == n) with
    | none =>
      have hmem := hperm.subset (List.mem_of_find?_eq_some hf)
      have hno := List.find?_eq_none.mp hf2 pr hmem
      rw [List.find?_some hf] at hno
      exact absurd rfl hno
    | some pr2 =>
      have hm1 := List.mem_of_find?_eq_some hf
      have hm2 := hperm.symm.subset (List.mem_of_find?_eq_some hf2)
      have he1 : pr.1 = n := by simpa using List.find?_some hf
      have he2 : pr2.1 = n := by simpa using List.find?_some hf2
      rw [nodup_map_eq hnd hm1 hm2 (by rw [he1, he2])]

theorem find?_normalize {cs : List (String × Entry)} (hwf : wfChildren cs = true)
    (n : String) :
    (normalizeChildren cs).find? (fun pr => pr.1 == n)
      = (cs.find? (fun pr => pr.1 == n)).map (fun pr => (pr.1, canonEntry pr.2)) := by
  have hnd : ((canonList cs).map Prod.fst).Nodup := by
    rw [canonList_eq_map, List.map_map]
    exact wf_names_nodup hwf
  have h1 := find?_name_perm hnd
    (sortLe_perm (fun a b => ! pairKeyLT a b) (canonList cs)).symm n
  rw [show (normalizeChildren cs : List (String × Entry))
      = sortPairsKD (canonList cs) from rfl]
  rw [show sortPairsKD (canonList cs) = sortLe (fun a b => ! pairKeyLT a b)
      (canonList cs) from rfl]
  rw [← h1]
  rw [canonList_eq_map]
  exact find?_map_pred _ _ _ (fun x => rfl) cs

theorem findEntry_normalize : ∀ (p : List String) (cs : List (String × Entry)),
    wfChildren cs = true →
    findEntry p (normalizeChildren cs) = Option.map canonEntry (findEntry p cs) := by
  intro p
  induction p with
  | nil => intro cs _; rfl
  | cons n rest ih =>
    intro cs hwf
    cases rest with
    | nil =>
      simp only [findEntry]
      rw [find?_normalize hwf]
      cases cs.find? (fun pr => pr.1 == n) with
      | none => rfl
      | some pr => rfl
    | cons r rs =>
      simp only [findEntry]
      rw [find?_normalize hwf]
      cases hf : cs.find? (fun pr => pr.1 == n) with
      | none => rfl
      | some pr =>
        obtain ⟨n0, e0⟩ := pr
        cases e0 with
        | file sz tx => rfl
        | symlink sz tx => rfl
        | dir cs' =>
          simp only [Option.map_some']
          rw [show canonEntry (Entry.dir cs') = Entry.dir (normalizeChildren cs')
              from rfl]
          exact ih cs' (wf_mem_entry hwf (List.mem_of_find?_eq_some hf))

theorem render_file_block_normalize {cs : List (String × Entry)}
    (hwf : wfChildren cs = true) (p : List String) :
    render_file_block (normalizeChildren cs) p = render_file_block cs p := by
  simp only [render_file_block]
  rw [findEntry_normalize p cs hwf]
  cases findEntry p cs with
  | none => rfl
  | some e =>
    simp only [Option.map_some']
    rw [canonEntry_read_text]

theorem file_contents_section_congr {cs ds : List (String × Entry)}
    (h : ∀ p, render_file_block cs p = render_file_block ds p) :
    ∀ L, file_contents_section cs L = file_contents_section ds L := by
  intro L
  induction L with
  | nil => rfl
  | cons p t ih => simp only [file_contents_section, h p, ih]

/-! ### Claim C7 -/

/-- Claim C7: the run is deterministic and its output is independent of the order
in which the filesystem enumerates directory entries: for any two well-formed
enumerations of the same filesystem state (identical canonical forms — same
entries under every directory, in any listing order) and identical CLI arguments,
the runs produce byte-identical results.  Determinism across repeated runs is
immediate since `run` is a function of the filesystem and arguments. -/
theorem c7_output_independent_of_enumeration (fs : FileSystem)
    (ds : List (String × Entry)) (args : Args)
    (hwf1 : wfChildren fs.target_children = true) (hwf2 : wfChildren ds = true)
    (hnorm : normalizeChildren fs.target_children = normalizeChildren ds) :
    run fs args = run { fs with target_children := ds } args := by
  set fs2 : FileSystem := { fs with target_children := ds } with hfs2
  have hspec : load_ignore_spec fs2 args.ignore_file
      = load_ignore_spec fs args.ignore_file := rfl
  have hbody : doc_body fs args = doc_body fs2 args := by
    simp only [doc_body, hspec]
    have htree : format_tree (build_directory_tree fs.target_name fs.target_children
          (load_ignore_spec fs args.ignore_file) args.max_size []) "" true
        = format_tree (build_directory_tree fs2.target_name fs2.target_children
          (load_ignore_spec fs args.ignore_file) args.max_size []) "" true := by
      have h1 := format_build_normalize (sizeOf fs.target_children) fs.target_children
        le_rfl false fs.target_name (load_ignore_spec fs args.ignore_file)
        args.max_size [] "" true
      have h2 := format_build_normalize (sizeOf ds) ds le_rfl false fs.target_name
        (load_ignore_spec fs args.ignore_file) args.max_size [] "" true
      rw [show ∀ cs, (build_directory_tree fs.target_name cs
            (load_ignore_spec fs args.ignore_file) args.max_size []).setIgnored false
          = build_directory_tree fs.target_name cs
            (load_ignore_spec fs args.ignore_file) args.max_size [] from
        fun cs => rfl] at h1 h2
      rw [h1, hnorm, ← h2]
    have hpaths := sortPaths_included_eq (load_ignore_spec fs args.ignore_file)
      args.max_size hwf1 hwf2 hnorm
    have hrender : ∀ p, render_file_block fs.target_children p
        = render_file_block ds p := by
      intro p
      rw [← render_file_block_normalize hwf1 p, hnorm,
        render_file_block_normalize hwf2 p]
    rw [htree]
    rw [show fs2.target_children = ds from rfl,
      show fs2.target_name = fs.target_name from rfl]
    rw [show included_files fs.target_children (load_ignore_spec fs args.ignore_file)
          args.max_size
        = included_files fs.target_children (load_ignore_spec fs args.ignore_file)
          args.max_size from rfl]
    rw [hpaths]
    rw [file_contents_section_congr hrender]
  simp only [run]
  rw [show fs2.files = fs.files from rfl, show fs2.cwd = fs.cwd from rfl, hbody]

/-- Witness for C7: two enumeration orders of the same directory (reordered at
the top level and inside `sub`) produce identical run results. -/
theorem c7_witness :
    wfChildren exEnumA = true ∧ wfChildren exEnumB = true ∧
    normalizeChildren exEnumA = normalizeChildren exEnumB ∧
    run fsEnumA defaultArgs = run { fsEnumA with target_children := exEnumB }
      defaultArgs :=
  ⟨rfl, rfl, rfl,
    c7_output_independent_of_enumeration fsEnumA exEnumB defaultArgs rfl rfl rfl⟩

/-- Permuting a well-formed directory's enumerated children does not change the
canonical form; together with congruence through `canonEntry` for deeper levels,
this is why equality of canonical forms captures "the same filesystem contents,
any enumeration order" in claim C7's hypotheses. -/
theorem normalize_eq_of_perm {cs ds : List (String × Entry)}
    (hwf : wfChildren cs = true) (hperm : cs.Perm ds) :
    normalizeChildren cs = normalizeChildren ds := by
  have hpc : (canonList cs).Perm (canonList ds) := by
    rw [canonList_eq_map, canonList_eq_map]
    exact hperm.map _
  have hperm2 : (sortPairsKD (canonList cs)).Perm (sortPairsKD (canonList ds)) :=
    ((sortLe_perm _ _).trans hpc).trans (sortLe_perm _ _).symm
  apply pairwise_perm_eq hperm2
    (sortLe_pairwise (fun a b => pairLe_total a b) (fun a b c => pairLe_trans a b c) _)
    (sortLe_pairwise (fun a b => pairLe_total a b) (fun a b c => pairLe_trans a b c) _)
  intro a ha b hb hab hba
  simp only [Bool.not_eq_true'] at hab hba
  obtain ⟨hd, hn⟩ := pairKeyLT_conn hab hba
  have ha2 : a ∈ canonList cs := mem_sortLe.mp ha
  have hb2 : b ∈ canonList cs := mem_sortLe.mp hb
  have hnd : ((canonList cs).map Prod.fst).Nodup := by
    rw [canonList_eq_map, List.map_map]
    exact wf_names_nodup hwf
  exact nodup_map_eq hnd ha2 hb2 hn
